import Mathlib

/- Verification development for the flowcraft pipeline tooling.

   Part 1 models the pipeline DSL compiler: lexer, parser, dependency-graph
   builder, code generator and compiler facade.  The compiler sources are
   not part of the checked tree (flowcraft.py only calls into them through
   parse_pipeline and NextflowGenerator), so every definition in this part
   is modelled from the specification document, as its doc comment states.

   Part 2 embeds the NextflowInspector utility code from
   assemblerflow/generator/inspect.py, translated directly from the source.
   Python strings are modelled as List Char, Python floats as ℚ, and a
   raised exception as an Except error value. -/

deriving instance DecidableEq for Except

/-! ### Part 1: the pipeline DSL compiler, modelled from the spec -/

/-- Modelled from the spec: token kinds of the pipeline DSL
(identifier, structural characters and branch separator); the lexer source
is missing from the tree. -/
inductive TokKind where
  | ident (nm : String)
  | lparen
  | rparen
  | pipe
  deriving DecidableEq

/-- Modelled from the spec: a token is a kind together with its source
offset. -/
structure Token where
  kind : TokKind
  off : ℕ
  deriving DecidableEq

/-- Modelled from the spec: the typed compile error surface
(SyntaxError, UnknownProcessError, MissingDependencyError, CycleError,
EmptyPipelineError); parseError stands for a malformed token stream
reported by the parser. -/
inductive CompileError where
  | syntaxError (off : ℕ) (ch : Char)
  | parseError
  | unknownProcess (nm : String) (off : ℕ)
  | emptyPipeline
  | missingDependency (cap : String) (proc : String)
  | cycleError
  deriving DecidableEq

/-- Modelled from the spec: identifier characters of the declared
alphabet. -/
def isIdentChar (c : Char) : Bool :=
  c.isAlphanum || c == '_'

/-- Modelled from the spec: whitespace separators of the declared
alphabet. -/
def isSpaceChar (c : Char) : Bool :=
  c == ' ' || c == '\t' || c == '\n' || c == '\r'

/-- Modelled from the spec: the declared alphabet of the pipeline DSL:
identifier characters, whitespace, parentheses and the pipe. -/
def inAlphabet (c : Char) : Bool :=
  isIdentChar c || isSpaceChar c || c == '(' || c == ')' || c == '|'

/-- Pending identifier accumulator of the lexer: collected characters and
the start offset. -/
def flushIdent : Option (List Char × ℕ) → List Token
  | none => []
  | some (acc, s) => [⟨TokKind.ident ⟨acc⟩, s⟩]

/-- Modelled from the spec: the lexer worker.  It walks the characters,
splitting on whitespace and the structural characters, accumulating
identifier characters into process-name tokens, and fails with a
SyntaxError carrying the exact offset of the first character outside the
declared alphabet. -/
def tokenizeAux : List Char → ℕ → Option (List Char × ℕ) →
    Except CompileError (List Token)
  | [], _, acc => .ok (flushIdent acc)
  | c :: cs, i, acc =>
    if isIdentChar c then
      tokenizeAux cs (i + 1)
        (match acc with
         | none => some ([c], i)
         | some (a, s) => some (a ++ [c], s))
    else if isSpaceChar c then
      (fun ts => flushIdent acc ++ ts) <$> tokenizeAux cs (i + 1) none
    else if c == '(' then
      (fun ts => flushIdent acc ++ ⟨TokKind.lparen, i⟩ :: ts) <$>
        tokenizeAux cs (i + 1) none
    else if c == ')' then
      (fun ts => flushIdent acc ++ ⟨TokKind.rparen, i⟩ :: ts) <$>
        tokenizeAux cs (i + 1) none
    else if c == '|' then
      (fun ts => flushIdent acc ++ ⟨TokKind.pipe, i⟩ :: ts) <$>
        tokenizeAux cs (i + 1) none
    else .error (.syntaxError i c)

/-- Modelled from the spec: tokenize(raw) -> sequence of Token. -/
def tokenize (input : List Char) : Except CompileError (List Token) :=
  tokenizeAux input 0 none

/-- Modelled from the spec: a ProcessSpec of the registry: name, required
capabilities, produced capabilities (default parameters are irrelevant to
the compiler core and omitted). -/
structure ProcessSpec where
  name : String
  requires : List String
  produces : List String
  deriving DecidableEq

/-- Modelled from the spec: the Process Registry contract consumed by the
core: lookup and defaultProviderFor. -/
structure Registry where
  lookup : String → Option ProcessSpec
  defaultProviderFor : String → Option ProcessSpec

/-- Modelled from the spec: the AST. A pipeline or branch is a list of
steps; a step is a process leaf or a fork with one branch list per lane.
Single-branch groups are spliced away by the parser, so they have no AST
form. -/
inductive Step where
  | proc (nm : String)
  | fork (branches : List (List Step))

mutual

/-- Modelled from the spec: the recursive-descent parser, step-list worker.
Fuel-indexed to make the mutual recursion structural; parsePipeline always
supplies enough fuel.  Parses `Step (SEP Step)*`, stopping at a closing
parenthesis, a pipe, or the end of input, and validating every process
name against the registry. -/
def parseStepsF (reg : Registry) : ℕ → List Token →
    Except CompileError (List Step × List Token)
  | 0, _ => .error .parseError
  | _ + 1, [] => .ok ([], [])
  | f + 1, t :: ts =>
    match t.kind with
    | .rparen => .ok ([], t :: ts)
    | .pipe => .ok ([], t :: ts)
    | .ident nm =>
      if (reg.lookup nm).isSome then
        match parseStepsF reg f ts with
        | .error e => .error e
        | .ok (ss, r) => .ok (.proc nm :: ss, r)
      else .error (.unknownProcess nm t.off)
    | .lparen =>
      match parseBranchesF reg f ts with
      | .error e => .error e
      | .ok (bs, r) =>
        match parseStepsF reg f r with
        | .error e => .error e
        | .ok (ss, r') =>
          match bs with
          | [b] => .ok (b ++ ss, r')
          | _ => .ok (.fork bs :: ss, r')

/-- Modelled from the spec: the recursive-descent parser, branch-list
worker for `Branch ('|' Branch)* ')'`.  Every branch must be non-empty;
the single-branch case is spliced by parseStepsF. -/
def parseBranchesF (reg : Registry) : ℕ → List Token →
    Except CompileError (List (List Step) × List Token)
  | 0, _ => .error .parseError
  | f + 1, ts =>
    match parseStepsF reg f ts with
    | .error e => .error e
    | .ok (ss, r) =>
      if ss.isEmpty then .error .parseError
      else
        match r with
        | ⟨TokKind.pipe, _⟩ :: rest =>
          match parseBranchesF reg f rest with
          | .error e => .error e
          | .ok (bs, r') => .ok (ss :: bs, r')
        | ⟨TokKind.rparen, _⟩ :: rest => .ok ([ss], rest)
        | _ => .error .parseError
end

/-- Modelled from the spec: the full parser.  Implements
`Pipeline := Step (SEP Step)*`; leftover tokens are a malformed stream and
an empty pipeline is EmptyPipelineError. -/
def parsePipeline (reg : Registry) (ts : List Token) :
    Except CompileError (List Step) :=
  match parseStepsF reg (2 * ts.length + 1) ts with
  | .error e => .error e
  | .ok (ss, r) =>
    if r.isEmpty then
      if ss.isEmpty then .error .emptyPipeline else .ok ss
    else .error .parseError

/-- Modelled from the spec: edge cardinality. -/
inductive Cardinality where
  | one
  | fanOut
  | fanIn
  deriving DecidableEq

/-- Modelled from the spec: a graph node with a stable integer id and a
process name. -/
structure GraphNode where
  nid : ℕ
  pname : String
  deriving DecidableEq

/-- Modelled from the spec: an edge referencing producer and consumer node
ids. -/
structure Edge where
  src : ℕ
  dst : ℕ
  card : Cardinality
  deriving DecidableEq

/-- Modelled from the spec: the graph owns an arena of nodes and the edge
list. -/
structure Graph where
  nodes : List GraphNode
  edges : List Edge
  deriving DecidableEq

/-- Modelled from the spec: Graph Builder state: the arena built so far
and the frontier, one node id per currently open lane, in lane declaration
order.  An empty frontier means the next node is a pipeline entry. -/
structure BState where
  nodes : List GraphNode
  edges : List Edge
  frontiers : List ℕ
  deriving DecidableEq

/-- Modelled from the spec: does some frontier node's process produce the
capability? -/
def capSatisfied (reg : Registry) (st : BState) (cap : String) : Bool :=
  st.frontiers.any fun f =>
    match st.nodes.find? (fun n => n.nid == f) with
    | some n =>
      match reg.lookup n.pname with
      | some sp => sp.produces.contains cap
      | none => false
    | none => false

/-- Modelled from the spec: cardinality of the inbound edges of the next
node: fan-out right after a fork, fan-in when two or more lanes are open
(a merge), one-to-one otherwise. -/
def inCard (st : BState) (card : Cardinality) : Cardinality :=
  if card = Cardinality.fanOut then Cardinality.fanOut
  else if 2 ≤ st.frontiers.length then Cardinality.fanIn
  else Cardinality.one

/-- Modelled from the spec: append a node for process p with the given
inbound cardinality from every frontier node; the new node becomes the
single frontier.  Ids are arena positions, so they are unique and
immutable for the life of one compile. -/
def pushNode (st : BState) (p : String) (card : Cardinality) : BState :=
  let pid := st.nodes.length
  { nodes := st.nodes ++ [⟨pid, p⟩]
  , edges := st.edges ++ st.frontiers.map (fun f => ⟨f, pid, card⟩)
  , frontiers := [pid] }

/-- Modelled from the spec: a sequence step for process p.  Looks up p's
required capabilities; on the first capability the frontier does not
satisfy, either synthesizes the registry's declared default provider and
splices it between the frontier and p (auto-dependency on) or fails with
MissingDependencyError (auto-dependency off). -/
def addProc (reg : Registry) (auto : Bool) (st : BState) (p : String)
    (card : Cardinality) : Except CompileError BState :=
  match reg.lookup p with
  | none => .error (.unknownProcess p 0)
  | some sp =>
    match sp.requires.find? (fun cap => !(capSatisfied reg st cap)) with
    | none => .ok (pushNode st p (inCard st card))
    | some cap =>
      if auto then
        match reg.defaultProviderFor cap with
        | none => .error (.missingDependency cap p)
        | some tsp =>
          let st' := pushNode st tsp.name (inCard st card)
          .ok (pushNode st' p Cardinality.one)
      else .error (.missingDependency cap p)

mutual

/-- Modelled from the spec: depth-first walk of a step list.  A process
leaf is a sequence step (a merge when several lanes are open); a fork
connects the current frontier by fan-out edges to the first node of each
branch and then tracks one lane per branch. -/
def buildSteps (reg : Registry) (auto : Bool) :
    List Step → Cardinality → BState → Except CompileError BState
  | [], _, st => .ok st
  | .proc p :: rest, card, st =>
    match addProc reg auto st p card with
    | .error e => .error e
    | .ok st' => buildSteps reg auto rest Cardinality.one st'
  | .fork bs :: rest, _, st =>
    match buildBranches reg auto bs st.frontiers st with
    | .error e => .error e
    | .ok (st', lanes) =>
      buildSteps reg auto rest Cardinality.one
        { st' with frontiers := lanes }

/-- Modelled from the spec: walk every branch of a fork from the fork
frontier, sharing one arena, and collect the branch frontiers as the open
lanes, in branch declaration order. -/
def buildBranches (reg : Registry) (auto : Bool) :
    List (List Step) → List ℕ → BState →
    Except CompileError (BState × List ℕ)
  | [], _, st => .ok (st, [])
  | b :: bs, forkFront, st =>
    match buildSteps reg auto b Cardinality.fanOut
        { st with frontiers := forkFront } with
    | .error e => .error e
    | .ok st1 =>
      match buildBranches reg auto bs forkFront st1 with
      | .error e => .error e
      | .ok (st2, lanes) => .ok (st2, st1.frontiers ++ lanes)

end

/-- Modelled from the spec: is a node free of incoming edges from the
still-unplaced nodes? -/
def noIncoming (es : List Edge) (rem : List ℕ) (n : ℕ) : Bool :=
  !(es.any fun e => e.dst == n && rem.contains e.src)

/-- Modelled from the spec: Kahn-style topological ordering worker:
repeatedly place the first remaining node (first-declared order breaks
ties, for reproducibility) that has no incoming edge from the remaining
nodes; a stuck non-empty remainder means a cycle. -/
def topoAux : ℕ → List ℕ → List Edge → Option (List ℕ)
  | _, [], _ => some []
  | 0, _ :: _, _ => none
  | fuel + 1, a :: rest, es =>
    match (a :: rest).find? (noIncoming es (a :: rest)) with
    | none => none
    | some n =>
      (topoAux fuel ((a :: rest).erase n) es).map (fun ord => n :: ord)

/-- Modelled from the spec: the topological feasibility check run over the
full node/edge set after the walk; also the order used by the code
generator. -/
def topoSort (g : Graph) : Option (List ℕ) :=
  topoAux g.nodes.length (g.nodes.map (fun n => n.nid)) g.edges

/-- A valid topological order of a graph: no repeats, every node placed,
and every edge goes forward in the order. -/
def isTopoOrder (g : Graph) (ord : List ℕ) : Prop :=
  ord.Nodup ∧ (∀ n ∈ g.nodes, n.nid ∈ ord) ∧
    ∀ e ∈ g.edges, e.src ∈ ord ∧ e.dst ∈ ord ∧
      ord.indexOf e.src < ord.indexOf e.dst

/-- Modelled from the spec: build(ast, registry, auto_dependency) walks
the AST from an empty arena and then runs the topological feasibility
check; a back-edge raises CycleError, otherwise the immutable graph is
returned. -/
def build (ast : List Step) (reg : Registry) (auto : Bool) :
    Except CompileError Graph :=
  match buildSteps reg auto ast Cardinality.one ⟨[], [], []⟩ with
  | .error e => .error e
  | .ok st =>
    let g : Graph := ⟨st.nodes, st.edges⟩
    match topoSort g with
    | some _ => .ok g
    | none => .error .cycleError

/-- Modelled from the spec: channel identifiers are derived
deterministically from the node id alone. -/
def channelName (nid : ℕ) : String :=
  "ch_" ++ toString nid

/-- Modelled from the spec: the statements emitted for one node: a
generated combine channel first when the node has fan-in edges, then a
channel declaration binding the node's output together with the process
invocation referencing its resolved input channels. -/
def nodeLines (g : Graph) (nid : ℕ) : List String :=
  let inbound := g.edges.filter (fun e => e.dst == nid)
  let pn :=
    match g.nodes.find? (fun n => n.nid == nid) with
    | some n => n.pname
    | none => ""
  let inputExpr :=
    match inbound with
    | [] => "entry"
    | [e] => channelName e.src
    | _ => "combine_" ++ toString nid
  let combineLine :=
    if 2 ≤ inbound.length then
      ["combine_" ++ toString nid ++ " = mix(" ++
        String.intercalate ", " (inbound.map (fun e => channelName e.src))
        ++ ")"]
    else []
  combineLine ++
    [channelName nid ++ " = invoke " ++ pn ++ "(" ++ inputExpr ++ ")"]

/-- Modelled from the spec: render the script for a given topological
order: newline-separated channel declarations and process invocations. -/
def renderScript (g : Graph) (ord : List ℕ) (nm : String) : String :=
  String.intercalate "\n" (("pipeline " ++ nm) :: ord.flatMap (nodeLines g))

/-- Modelled from the spec: generate(graph, pipeline_name): a pure
read-only pass that topologically sorts the nodes and renders the
script. -/
def generate (g : Graph) (nm : String) : Option String :=
  (topoSort g).map (fun ord => renderScript g ord nm)

/-- Modelled from the spec: the Compiler Facade.  Runs lexer, parser,
graph builder and code generator in that fixed order, stopping at the
first failing phase and returning its typed error; a script is produced
only when every phase succeeds. -/
def compile (input : List Char) (reg : Registry) (auto : Bool)
    (nm : String) : Except CompileError String :=
  match tokenize input with
  | .error e => .error e
  | .ok ts =>
    match parsePipeline reg ts with
    | .error e => .error e
    | .ok ss =>
      match build ss reg auto with
      | .error e => .error e
      | .ok g =>
        match generate g nm with
        | some txt => .ok txt
        | none => .error CompileError.cycleError

/-- A concrete registry used by the witnesses: A, B, C and D have no
required capabilities, X requires "trimmed", and T is the registry's
declared default provider for "trimmed". -/
def exampleRegistry : Registry :=
  { lookup := fun nm =>
      if nm = "A" then some ⟨"A", [], ["rawA"]⟩
      else if nm = "B" then some ⟨"B", [], ["rawB"]⟩
      else if nm = "C" then some ⟨"C", [], ["rawC"]⟩
      else if nm = "D" then some ⟨"D", [], ["rawD"]⟩
      else if nm = "X" then some ⟨"X", ["trimmed"], []⟩
      else if nm = "T" then some ⟨"T", [], ["trimmed"]⟩
      else none
  , defaultProviderFor := fun cap =>
      if cap = "trimmed" then some ⟨"T", [], ["trimmed"]⟩ else none }

/-- Builder invariant: node ids are exactly the arena positions, every
edge endpoint is a valid node id, and every frontier entry is a valid
node id. -/
def BInv (st : BState) : Prop :=
  st.nodes.map GraphNode.nid = List.range st.nodes.length ∧
  (∀ e ∈ st.edges, e.src < st.nodes.length ∧ e.dst < st.nodes.length) ∧
  (∀ f ∈ st.frontiers, f < st.nodes.length)

/-- Modelled from the spec: concrete grammar derivations.  A gproc leaf
is a process name; a ggroup is a parenthesized group with one branch per
lane.  Unlike the AST, a group with a single branch is representable
here, so splicing can be stated. -/
inductive GTree where
  | gproc (nm : String)
  | ggroup (branches : List (List GTree))

mutual

/-- Token rendering of one derivation step (offsets are irrelevant to
parsing success and set to 0). -/
def flatten1 : GTree → List Token
  | .gproc nm => [⟨TokKind.ident nm, 0⟩]
  | .ggroup bs => ⟨TokKind.lparen, 0⟩ :: (flattenB bs ++ [⟨TokKind.rparen, 0⟩])

/-- Token rendering of a branch list, pipe-separated. -/
def flattenB : List (List GTree) → List Token
  | [] => []
  | [b] => flattenL b
  | b :: b2 :: bs => flattenL b ++ ⟨TokKind.pipe, 0⟩ :: flattenB (b2 :: bs)

/-- Token rendering of a derivation sequence. -/
def flattenL : List GTree → List Token
  | [] => []
  | t :: ts => flatten1 t ++ flattenL ts

end

mutual

/-- The AST a derivation step denotes: a single-branch group splices into
the surrounding sequence, a multi-branch group becomes a fork. -/
def ast1 : GTree → List Step
  | .gproc nm => [.proc nm]
  | .ggroup [b] => astL b
  | .ggroup bs => [.fork (astB bs)]

/-- The branch ASTs of a group. -/
def astB : List (List GTree) → List (List Step)
  | [] => []
  | b :: bs => astL b :: astB bs

/-- The AST of a derivation sequence. -/
def astL : List GTree → List Step
  | [] => []
  | t :: ts => ast1 t ++ astL ts

end

mutual

/-- Well-formed derivation step: names registered, groups non-empty. -/
def wf1 (reg : Registry) : GTree → Bool
  | .gproc nm => (reg.lookup nm).isSome
  | .ggroup bs => !bs.isEmpty && wfB reg bs

/-- Well-formed branch list: every branch non-empty and well-formed. -/
def wfB (reg : Registry) : List (List GTree) → Bool
  | [] => true
  | b :: bs => !b.isEmpty && wfL reg b && wfB reg bs

/-- Well-formed derivation sequence. -/
def wfL (reg : Registry) : List GTree → Bool
  | [] => true
  | t :: ts => wf1 reg t && wfL reg ts

end

mutual

/-- Every fork in a step has at least two branches, recursively. -/
def forksOK1 : Step → Bool
  | .proc _ => true
  | .fork bs => decide (2 ≤ bs.length) && forksOKB bs

/-- forksOK over a branch list. -/
def forksOKB : List (List Step) → Bool
  | [] => true
  | b :: bs => forksOKL b && forksOKB bs

/-- forksOK over a step list. -/
def forksOKL : List Step → Bool
  | [] => true
  | s :: ss => forksOK1 s && forksOKL ss

end

mutual

/-- Removal of the parentheses of exactly one single-branch group
somewhere in a derivation sequence, splicing its branch in place. -/
inductive SpliceL : List GTree → List GTree → Prop where
  | here (b ts : List GTree) :
      SpliceL (GTree.ggroup [b] :: ts) (b ++ ts)
  | skip (t : GTree) (ts ts' : List GTree) :
      SpliceL ts ts' → SpliceL (t :: ts) (t :: ts')
  | inside (bs bs' : List (List GTree)) (ts : List GTree) :
      SpliceB bs bs' → SpliceL (GTree.ggroup bs :: ts) (GTree.ggroup bs' :: ts)

/-- Removal of one single-branch group's parentheses inside a branch
list. -/
inductive SpliceB : List (List GTree) → List (List GTree) → Prop where
  | bhere (b b' : List GTree) (bs : List (List GTree)) :
      SpliceL b b' → SpliceB (b :: bs) (b' :: bs)
  | bskip (b : List GTree) (bs bs' : List (List GTree)) :
      SpliceB bs bs' → SpliceB (b :: bs) (b :: bs')

end

/-- A token list at which the step-list parser stops: end of input, a
closing parenthesis, or a pipe. -/
def stopTok (rest : List Token) : Prop :=
  rest = [] ∨ ∃ t ts, rest = t :: ts ∧
    (t.kind = TokKind.rparen ∨ t.kind = TokKind.pipe)

/-! ### Part 2: NextflowInspector utilities, embedded from
assemblerflow/generator/inspect.py -/

/-- Python exception kinds that the embedded inspector code can raise. -/
inductive PyErr where
  | valueError
  | indexError
  | keyError
  | typeError
  | stopIteration
  | zeroDivision
  deriving DecidableEq

/-- A Python value stored in a trace-entry dict: a string field or None
(only the work_dir field can be None). -/
inductive PyVal where
  | str (s : List Char)
  | pyNone
  deriving DecidableEq

/-- Whitespace characters for Python str.strip / str.split(). -/
def pyWs (c : Char) : Bool :=
  c == ' ' || c == '\t' || c == '\n' || c == '\r'

/-- Python str.strip(): drop leading and trailing whitespace. -/
def pyStrip (cs : List Char) : List Char :=
  ((cs.dropWhile pyWs).reverse.dropWhile pyWs).reverse

/-- Python str.rstrip(chars): drop trailing characters drawn from the
given character set (set semantics, exactly as the source's
rstrip("ms") / rstrip("MB") / rstrip("GB") calls behave). -/
def pyRstripSet (cs : List Char) (chars : List Char) : List Char :=
  (cs.reverse.dropWhile (fun c => chars.contains c)).reverse

/-- Python str.endswith(suffix). -/
def pyEndsWith (cs suffix : List Char) : Bool :=
  decide (suffix <:+ cs)

/-- Splitting on single separator characters, keeping empty chunks, as
re.split("[hms]", s) and str.split("\t") do. -/
def pySplitOn (isSep : Char → Bool) : List Char → List (List Char)
  | [] => [[]]
  | c :: cs =>
    if isSep c then [] :: pySplitOn isSep cs
    else
      match pySplitOn isSep cs with
      | [] => [[c]]
      | g :: gs => (c :: g) :: gs

/-- The source's re.split("[hms]", s). -/
def pySplitHMS (cs : List Char) : List (List Char) :=
  pySplitOn (fun c => c == 'h' || c == 'm' || c == 's') cs

/-- The source's line.strip().split("\t"). -/
def pySplitTab (cs : List Char) : List (List Char) :=
  pySplitOn (fun c => c == '\t') cs

/-- Python str.split() with no argument: split on whitespace runs and
discard empty chunks. -/
def pySplitWs (cs : List Char) : List (List Char) :=
  (pySplitOn pyWs cs).filter (fun g => !g.isEmpty)

/-- Numeric value of a decimal digit string. -/
def digitsVal (cs : List Char) : ℕ :=
  cs.foldl (fun a c => 10 * a + (c.toNat - 48)) 0

/-- All characters are decimal digits. -/
def allDigits (cs : List Char) : Bool :=
  cs.all Char.isDigit

/-- Python int(s), modelled for the unsigned decimal literals the trace
file produces; anything else raises ValueError (None here). -/
def pyIntParse (cs : List Char) : Option ℕ :=
  if !cs.isEmpty && allDigits cs then some (digitsVal cs) else none

/-- Python float(s), modelled for the unsigned decimal literals
(optionally with a fractional part) the trace file produces; anything
else raises ValueError (None here). -/
def pyFloatParse (cs : List Char) : Option ℚ :=
  match pySplitOn (fun c => c == '.') cs with
  | [w] => if !w.isEmpty && allDigits w then some (digitsVal w) else none
  | [w, fr] =>
    if !w.isEmpty && allDigits w && !fr.isEmpty && allDigits fr then
      some ((digitsVal w : ℚ) + (digitsVal fr : ℚ) / ((10 : ℚ) ^ fr.length))
    else none
  | _ => none

/-- NextflowInspector.hms, translated from the source: "-" is 0 seconds;
a string ending in "ms" is int(s.rstrip("ms")) / 1000; otherwise the
string is split on [hms], the last chunk dropped, the fields read as
floats, and combined as h-m-s, m-s, or the first field alone. -/
def hms (s : List Char) : Except PyErr ℚ :=
  if s = ['-'] then .ok 0
  else if pyEndsWith s ['m', 's'] then
    match pyIntParse (pyRstripSet s ['m', 's']) with
    | some n => .ok ((n : ℚ) / 1000)
    | none => .error PyErr.valueError
  else
    match ((pySplitHMS s).dropLast).mapM pyFloatParse with
    | none => .error PyErr.valueError
    | some fields =>
      match fields with
      | [a, b, c] => .ok (a * 3600 + b * 60 + c)
      | [a, b] => .ok (a * 60 + b)
      | a :: _ => .ok a
      | [] => .error PyErr.indexError

/-- NextflowInspector.size_coverter, translated from the source: strings
ending in "MB" give their float prefix, strings ending in "GB" give the
float prefix times 1024, and every other string falls through to Python's
implicit None. -/
def size_coverter (s : List Char) : Except PyErr (Option ℚ) :=
  if pyEndsWith s ['M', 'B'] then
    match pyFloatParse (pyRstripSet s ['M', 'B']) with
    | some v => .ok (some v)
    | none => .error PyErr.valueError
  else if pyEndsWith s ['G', 'B'] then
    match pyFloatParse (pyRstripSet s ['G', 'B']) with
    | some v => .ok (some (v * 1024))
    | none => .error PyErr.valueError
  else .ok none

/-- The trace-file side of the filesystem seen by the inspector: the
trace file's modification timestamp (os.stat's integer st_mtime field),
its content lines, and the directory listing used by _expand_path for
each first-level hash. -/
structure TraceFS where
  mtime : ℤ
  lines : List (List Char)
  workdirs : List Char → List (List Char)

/-- Rounded statistics of one process, as stored in process_stats.
completed and bad_samples model the source's decimal count strings by
their numeric value; maxmem models the formatted "-" / "...MB" / "...GB"
string by its tag and numeric payload. -/
inductive MemStr where
  | dash
  | mb (n : ℤ)
  | gb (q : ℚ)
  deriving DecidableEq

structure ProcStat where
  completed : ℕ
  bad_samples : ℕ
  realtime : ℚ
  cumtime : ℚ
  maxmem : MemStr
  deriving DecidableEq

/-- The inspector state touched by the static parsing method: the five
attributes trace_stamp, stored_ids, process_info, process_stats and
samples.  Dicts are modelled as insertion-ordered association lists. -/
structure InspectorState where
  trace_stamp : Option ℤ
  stored_ids : List (List Char)
  process_info : List (List Char × List (List (List Char × PyVal)))
  process_stats : List (List Char × ProcStat)
  samples : List (List Char)
  deriving DecidableEq

/-- Python dict lookup on an insertion-ordered association list. -/
def dictGet {α : Type} (m : List (List Char × α)) (k : List Char) :
    Option α :=
  (m.find? (fun p => p.1 == k)).map (fun p => p.2)

/-- Python dict assignment: update in place, or append preserving
insertion order. -/
def dictUpsert {α : Type} (m : List (List Char × α)) (k : List Char)
    (v : α) : List (List Char × α) :=
  match m with
  | [] => [(k, v)]
  | (k', v') :: rest =>
    if k' == k then (k, v) :: rest else (k', v') :: dictUpsert rest k v

/-- NextflowInspector._header_mapping: dict of column name to position
from the tab-split header (later duplicate columns overwrite the
position, as a Python dict comprehension does). -/
def headerMapping (header : List Char) : List (List Char × ℕ) :=
  (pySplitTab header).enum.foldl (fun m p => dictUpsert m p.2 p.1) []

/-- fields[pos], raising IndexError when out of range. -/
def getField (fields : List (List Char)) (pos : ℕ) :
    Except PyErr (List Char) :=
  match fields.get? pos with
  | some v => .ok v
  | none => .error PyErr.indexError

/-- NextflowInspector._expand_path: split the hash on "/" (exactly two
parts, else the tuple unpacking raises ValueError), list the first-level
work directory and return the entry starting with the second part;
falling off the loop returns Python's implicit None. -/
def expandPath (fs : TraceFS) (hashStr : List Char) : Except PyErr PyVal :=
  match pySplitOn (fun c => c == '/') hashStr with
  | [first, second] =>
    match (fs.workdirs first).find? (fun l => decide (second <+: l)) with
    | some l => .ok (PyVal.str (first ++ '/' :: l))
    | none => .ok PyVal.pyNone
  | _ => .error PyErr.valueError

/-- The source's skip_processes list. -/
def skipProcesses : List (List Char) :=
  [String.toList "status", String.toList "compile_status",
   String.toList "report", String.toList "compile_reports"]

/-- NextflowInspector._update_status: build the column dict for one trace
line, expand the hash into work_dir when present, record a new sample tag
when present, and append the entry to process_info (a defaultdict of
lists).  Skipped processes leave the state unchanged. -/
def updateStatus (fs : TraceFS) (fields : List (List Char))
    (hm : List (List Char × ℕ)) (st : InspectorState) :
    Except PyErr InspectorState :=
  match dictGet hm (String.toList "process") with
  | none => .error PyErr.keyError
  | some ppos =>
    match getField fields ppos with
    | .error e => .error e
    | .ok process =>
      if skipProcesses.contains process then .ok st
      else
        match hm.mapM (fun p =>
            (getField fields p.2).map (fun v => (p.1, PyVal.str v))) with
        | .error e => .error e
        | .ok info0 =>
          match
            (match dictGet info0 (String.toList "hash") with
             | some (PyVal.str hs) =>
               (expandPath fs hs).map
                 (fun wd => info0 ++ [(String.toList "work_dir", wd)])
             | some PyVal.pyNone => .error PyErr.typeError
             | none => .ok info0) with
          | .error e => .error e
          | .ok info =>
            let samplesNext : Except PyErr (List (List Char)) :=
              match dictGet info (String.toList "tag") with
              | some (PyVal.str tag) =>
                if tag = String.toList "-" then .ok st.samples
                else if st.samples.contains tag then .ok st.samples
                else
                  match (pySplitWs tag).get? 0 with
                  | none => .error PyErr.indexError
                  | some t0 =>
                    if st.samples.contains t0 then .ok st.samples
                    else .ok (st.samples ++ [tag])
              | some PyVal.pyNone => .ok st.samples
              | none => .ok st.samples
            match samplesNext with
            | .error e => .error e
            | .ok samples' =>
              let pinfo :=
                match dictGet st.process_info process with
                | some vs => dictUpsert st.process_info process (vs ++ [info])
                | none => st.process_info ++ [(process, [info])]
              .ok { st with samples := samples', process_info := pinfo }

/-- Round to nearest integer, ties to even, as Python round() does
(floats modelled as exact rationals). -/
def roundHalfEven (q : ℚ) : ℤ :=
  let f := ⌊q⌋
  let r := q - (f : ℚ)
  if r < 1 / 2 then f
  else if 1 / 2 < r then f + 1
  else if f % 2 = 0 then f else f + 1

/-- Python round(x, 1). -/
def pyRound1 (q : ℚ) : ℚ :=
  (roundHalfEven (q * 10) : ℚ) / 10

/-- The source's good_status list. -/
def goodStatus : List (List Char) :=
  [String.toList "COMPLETED", String.toList "CACHED"]

/-- Does a status dict value count as a completed sample? -/
def valIsGood (v : PyVal) : Bool :=
  match v with
  | .str s => goodStatus.contains s
  | .pyNone => false

/-- hms applied to a dict value; a non-string raises TypeError. -/
def hmsOfVal : PyVal → Except PyErr ℚ
  | .str s => hms s
  | .pyNone => .error PyErr.typeError

/-- The stats computed by _update_process_stats for one process from its
process_info entries: completed and errored counts, mean and cumulative
realtime rounded to one decimal, and the maximum rss formatted as MB or
GB (an empty rss list gives "-"; a None from size_coverter makes the
max/round comparison raise TypeError, as in Python). -/
def computeStat (vals : List (List (List Char × PyVal))) :
    Except PyErr ProcStat :=
  match vals.mapM (fun x =>
      match dictGet x (String.toList "status") with
      | some v => Except.ok v
      | none => Except.error PyErr.keyError) with
  | .error e => .error e
  | .ok sts =>
    let completed := (sts.filter valIsGood).length
    let bad := (sts.filter (fun v => !valIsGood v)).length
    match vals.mapM (fun x =>
        match dictGet x (String.toList "realtime") with
        | some v => hmsOfVal v
        | none => Except.error PyErr.keyError) with
    | .error e => .error e
    | .ok times =>
      if times.length = 0 then .error PyErr.zeroDivision
      else
        let mean := pyRound1 (times.sum / (times.length : ℚ))
        let cum := pyRound1 times.sum
        match vals.mapM (fun x =>
            match dictGet x (String.toList "rss") with
            | some v => Except.ok v
            | none => Except.error PyErr.keyError) with
        | .error e => .error e
        | .ok rssVals =>
          let kept := rssVals.filter
            (fun v => !(v == PyVal.str (String.toList "-")))
          match kept.mapM (fun v =>
              match v with
              | PyVal.str s => size_coverter s
              | PyVal.pyNone => Except.error PyErr.typeError) with
          | .error e => .error e
          | .ok rssOpts =>
            if rssOpts.isEmpty then
              .ok ⟨completed, bad, mean, cum, MemStr.dash⟩
            else if rssOpts.any (fun o => o.isNone) then
              .error PyErr.typeError
            else
              let qs := rssOpts.reduceOption
              let mx := qs.foldl max 0
              let maxRss := roundHalfEven mx
              if 1 < (maxRss : ℚ) / 1024 then
                .ok ⟨completed, bad, mean, cum, MemStr.gb ((maxRss : ℚ) / 1024)⟩
              else
                .ok ⟨completed, bad, mean, cum, MemStr.mb maxRss⟩

/-- The per-process loop of _update_process_stats, re-populating
process_stats from process_info (the dict persists across calls; entries
are overwritten per process). -/
def statsFold : List (List Char × List (List (List Char × PyVal))) →
    List (List Char × ProcStat) →
    Except PyErr (List (List Char × ProcStat))
  | [], acc => .ok acc
  | (p, vals) :: rest, acc =>
    match computeStat vals with
    | .error e => .error e
    | .ok s => statsFold rest (dictUpsert acc p s)

/-- NextflowInspector._update_process_stats.  A raised exception is
modelled as the error value propagating to the caller (the partially
mutated Python dict is unobservable there). -/
def updateProcessStats (st : InspectorState) :
    Except PyErr InspectorState :=
  match statsFold st.process_info st.process_stats with
  | .error e => .error e
  | .ok stats => .ok { st with process_stats := stats }

/-- The header search of the static parsing method: next(fh).strip(),
skipping empty lines; an exhausted file raises StopIteration. -/
def findHeader : List (List Char) →
    Except PyErr (List Char × List (List Char))
  | [] => .error PyErr.stopIteration
  | l :: rest =>
    let h := pyStrip l
    if h.isEmpty then findHeader rest else .ok (h, rest)

/-- The line loop of the static parsing method: skip blank lines, split
on tabs, skip already-stored task ids, and fold each remaining entry into
the state via _update_status. -/
def parseLines (fs : TraceFS) (hm : List (List Char × ℕ)) :
    List (List Char) → InspectorState → Except PyErr InspectorState
  | [], st => .ok st
  | line :: rest, st =>
    if (pyStrip line).isEmpty then parseLines fs hm rest st
    else
      let fields := pySplitTab (pyStrip line)
      match dictGet hm (String.toList "task_id") with
      | none => .error PyErr.keyError
      | some tpos =>
        match getField fields tpos with
        | .error e => .error e
        | .ok tid =>
          if st.stored_ids.contains tid then parseLines fs hm rest st
          else
            match updateStatus fs fields hm st with
            | .error e => .error e
            | .ok st' => parseLines fs hm rest st'

/-- NextflowInspector's static parsing method (source name ends in a
reserved suffix), translated from the source: read the trace file's
modification timestamp; when it is truthy (non-zero) and equal to the
stored trace_stamp, return at once without opening the file; otherwise
store the new stamp, find the header, parse the remaining lines and
re-populate the process statistics. -/
def staticParser (fs : TraceFS) (st : InspectorState) :
    Except PyErr InspectorState :=
  let timestamp := fs.mtime
  if timestamp ≠ 0 ∧ st.trace_stamp = some timestamp then .ok st
  else
    let st1 := { st with trace_stamp := some timestamp }
    match findHeader fs.lines with
    | .error e => .error e
    | .ok (header, rest) =>
      let hm := headerMapping header
      match parseLines fs hm rest st1 with
      | .error e => .error e
      | .ok st2 => updateProcessStats st2

/-! ### Supporting lemmas for the inspector claims -/

/-- Two-element suffix of a list ending in two known characters. -/
theorem suffix_pair_iff (ys : List Char) (a b c d : Char) :
    ([a, b] <:+ ys ++ [c, d]) → a = c ∧ b = d := by
  rintro ⟨t, ht⟩
  have h := congrArg List.reverse ht
  simp [List.reverse_append] at h
  exact ⟨h.2.1, h.1⟩

/-- pySplitOn on a separator-free list returns the list whole. -/
theorem pySplitOn_no_sep (p : Char → Bool) (a : List Char)
    (ha : ∀ x ∈ a, p x = false) : pySplitOn p a = [a] := by
  induction a with
  | nil => rfl
  | cons c cs ih =>
    have hc : p c = false := ha c (List.mem_cons_self c cs)
    have ih' := ih (fun x hx => ha x (List.mem_cons_of_mem c hx))
    simp [pySplitOn, hc, ih']

/-- pySplitOn splits off the chunk before the first separator. -/
theorem pySplitOn_append (p : Char → Bool) (a rest : List Char) (c : Char)
    (ha : ∀ x ∈ a, p x = false) (hc : p c = true) :
    pySplitOn p (a ++ c :: rest) = a :: pySplitOn p rest := by
  induction a with
  | nil => simp [pySplitOn, hc]
  | cons x xs ih =>
    have hx : p x = false := ha x (List.mem_cons_self x xs)
    have ih' := ih (fun y hy => ha y (List.mem_cons_of_mem x hy))
    simp [pySplitOn, hx, ih']

/-- Stripping the trailing "ms" (or "MB", "GB") character set from a
digit string followed by that pair gives back the digit string. -/
theorem pyRstripSet_digits (ds : List Char) (c1 c2 : Char)
    (chars : List Char) (hne : ds ≠ []) (hd : allDigits ds = true)
    (h1 : chars.contains c1 = true) (h2 : chars.contains c2 = true)
    (hnd : ∀ x, x.isDigit = true → chars.contains x = false) :
    pyRstripSet (ds ++ [c1, c2]) chars = ds := by
  obtain ⟨d, tail, hrev⟩ : ∃ d tail, ds.reverse = d :: tail := by
    cases h : ds.reverse with
    | nil => exact absurd (List.reverse_eq_nil_iff.mp h) hne
    | cons d tail => exact ⟨d, tail, rfl⟩
  have hdmem : d ∈ ds := by
    have : d ∈ ds.reverse := hrev ▸ List.mem_cons_self d tail
    exact List.mem_reverse.mp this
  have hddig : d.isDigit = true := by
    simpa [allDigits] using (List.all_eq_true.mp hd d hdmem)
  have hdn : d ∉ chars := by simpa using hnd d hddig
  unfold pyRstripSet
  rw [List.reverse_append]
  simp only [List.reverse_cons, List.reverse_nil, List.nil_append,
    List.cons_append, List.dropWhile_cons, h2, h1, hrev]
  simp [List.dropWhile_cons, hdn, ← hrev]

/-- A digit string parses as a float to its numeric value. -/
theorem pyFloatParse_digits (ds : List Char) (hne : ds ≠ [])
    (hd : allDigits ds = true) :
    pyFloatParse ds = some ((digitsVal ds : ℚ)) := by
  have hnodot : ∀ x ∈ ds, (x == '.') = false := by
    intro x hx
    have : x.isDigit = true := by
      simpa [allDigits] using (List.all_eq_true.mp hd x hx)
    revert this
    simp only [beq_eq_false_iff_ne, ne_eq]
    intro hdig hdot
    rw [hdot] at hdig
    exact absurd hdig (by decide)
  unfold pyFloatParse
  rw [pySplitOn_no_sep _ _ hnodot]
  simp [hne, hd, List.isEmpty_eq_true]

/-- A digit string parses as an int to its numeric value. -/
theorem pyIntParse_digits (ds : List Char) (hne : ds ≠ [])
    (hd : allDigits ds = true) : pyIntParse ds = some (digitsVal ds) := by
  unfold pyIntParse
  simp [hne, hd, List.isEmpty_eq_true]

/-- A digit character is none of the h/m/s separators. -/
theorem digit_not_hms (x : Char) (hx : x.isDigit = true) :
    (x == 'h' || x == 'm' || x == 's') = false := by
  have hh : x ≠ 'h' := by rintro rfl; exact absurd hx (by decide)
  have hm : x ≠ 'm' := by rintro rfl; exact absurd hx (by decide)
  have hs : x ≠ 's' := by rintro rfl; exact absurd hx (by decide)
  simp [hh, hm, hs]

/-- Appending "ms" makes the endswith("ms") test true. -/
theorem pyEndsWith_append_pair (xs : List Char) (c1 c2 : Char) :
    pyEndsWith (xs ++ [c1, c2]) [c1, c2] = true := by
  simp [pyEndsWith, List.suffix_append]

/-- A string whose second-to-last character is not 'm' does not end in
"ms". -/
theorem pyEndsWith_ms_false (ys : List Char) (d : Char) (hd : d ≠ 'm') :
    pyEndsWith (ys ++ [d, 's']) ['m', 's'] = false := by
  simp only [pyEndsWith, decide_eq_false_iff_not]
  intro hsuf
  exact hd ((suffix_pair_iff ys 'm' 's' d 's' hsuf).1.symm)

/-- A list with two appended elements is not the one-element "-". -/
theorem append_pair_ne_dash (xs : List Char) (c1 c2 : Char) :
    xs ++ [c1, c2] ≠ ['-'] := by
  intro h
  have := congrArg List.length h
  simp at this

/-- hms on a digits-then-"ms" string. -/
theorem hms_ms_case (ds : List Char) (hne : ds ≠ [])
    (hd : allDigits ds = true) :
    hms (ds ++ ['m', 's']) = .ok ((digitsVal ds : ℚ) / 1000) := by
  have hdash := append_pair_ne_dash ds 'm' 's'
  have hends := pyEndsWith_append_pair ds 'm' 's'
  have hnd : ∀ x : Char, x.isDigit = true →
      (['m', 's'].contains x) = false := by
    intro x hx
    have hm : x ≠ 'm' := by rintro rfl; exact absurd hx (by decide)
    have hs : x ≠ 's' := by rintro rfl; exact absurd hx (by decide)
    simp [hm, hs]
  have hstrip := pyRstripSet_digits ds 'm' 's' ['m', 's'] hne hd
    (by decide) (by decide) hnd
  simp [hms, hdash, hends, hstrip, pyIntParse_digits ds hne hd]

/-- Digit strings contain no h/m/s separator. -/
theorem digits_no_hms (ds : List Char) (hd : allDigits ds = true) :
    ∀ x ∈ ds, (x == 'h' || x == 'm' || x == 's') = false := by
  intro x hx
  exact digit_not_hms x (by simpa [allDigits] using List.all_eq_true.mp hd x hx)

/-- The ends-in-"ms" test is false when the character before the final
's' is a digit drawn from a non-empty digit string. -/
theorem pyEndsWith_ms_false_of_digits (ys dsc : List Char)
    (h3 : dsc ≠ []) (g3 : allDigits dsc = true) :
    pyEndsWith (ys ++ (dsc ++ ['s'])) ['m', 's'] = false := by
  rcases List.eq_nil_or_concat dsc with h | ⟨ds', d, rfl⟩
  · exact absurd h h3
  · simp only [List.concat_eq_append] at g3 ⊢
    have hddig : d.isDigit = true := by
      have := List.all_eq_true.mp g3 d (by simp)
      simpa [allDigits] using this
    have hdm : d ≠ 'm' := by rintro rfl; exact absurd hddig (by decide)
    have hshape : ys ++ ((ds' ++ [d]) ++ ['s']) = (ys ++ ds') ++ [d, 's'] := by
      simp
    rw [hshape]
    exact pyEndsWith_ms_false (ys ++ ds') d hdm

/-- A non-empty list with one appended element is not "-". -/
theorem append_single_ne_dash (xs : List Char) (c : Char) (hne : xs ≠ []) :
    xs ++ [c] ≠ ['-'] := by
  intro h
  have := congrArg List.length h
  rcases xs with _ | ⟨y, ys⟩
  · exact hne rfl
  · simp at this

/-- hms on an h-m-s string of digit fields. -/
theorem hms_hms_case (dh dm dsc : List Char) (h1 : dh ≠ []) (h2 : dm ≠ [])
    (h3 : dsc ≠ []) (g1 : allDigits dh = true) (g2 : allDigits dm = true)
    (g3 : allDigits dsc = true) :
    hms (dh ++ 'h' :: (dm ++ 'm' :: (dsc ++ ['s']))) =
      .ok ((digitsVal dh : ℚ) * 3600 + (digitsVal dm : ℚ) * 60 +
        (digitsVal dsc : ℚ)) := by
  have hdash : dh ++ 'h' :: (dm ++ 'm' :: (dsc ++ ['s'])) ≠ ['-'] := by
    intro h
    have := congrArg List.length h
    simp at this
    omega
  have hends : pyEndsWith (dh ++ 'h' :: (dm ++ 'm' :: (dsc ++ ['s'])))
      ['m', 's'] = false := by
    have hshape : dh ++ 'h' :: (dm ++ 'm' :: (dsc ++ ['s'])) =
        (dh ++ 'h' :: (dm ++ ['m'])) ++ (dsc ++ ['s']) := by simp
    rw [hshape]
    exact pyEndsWith_ms_false_of_digits _ dsc h3 g3
  have hsplit : pySplitHMS (dh ++ 'h' :: (dm ++ 'm' :: (dsc ++ ['s']))) =
      [dh, dm, dsc, []] := by
    unfold pySplitHMS
    rw [pySplitOn_append _ dh _ 'h' (digits_no_hms dh g1) (by decide)]
    rw [pySplitOn_append _ dm _ 'm' (digits_no_hms dm g2) (by decide)]
    have : dsc ++ ['s'] = dsc ++ 's' :: ([] : List Char) := by simp
    rw [this,
      pySplitOn_append _ dsc _ 's' (digits_no_hms dsc g3) (by decide)]
    rfl
  simp [hms, hdash, hends, hsplit, List.mapM.loop,
    pyFloatParse_digits dh h1 g1, pyFloatParse_digits dm h2 g2,
    pyFloatParse_digits dsc h3 g3]

/-- hms on an m-s string of digit fields. -/
theorem hms_msfields_case (dm dsc : List Char) (h2 : dm ≠ [])
    (h3 : dsc ≠ []) (g2 : allDigits dm = true)
    (g3 : allDigits dsc = true) :
    hms (dm ++ 'm' :: (dsc ++ ['s'])) =
      .ok ((digitsVal dm : ℚ) * 60 + (digitsVal dsc : ℚ)) := by
  have hdash : dm ++ 'm' :: (dsc ++ ['s']) ≠ ['-'] := by
    intro h
    have := congrArg List.length h
    simp at this
    omega
  have hends : pyEndsWith (dm ++ 'm' :: (dsc ++ ['s'])) ['m', 's'] = false := by
    have hshape : dm ++ 'm' :: (dsc ++ ['s']) =
        (dm ++ ['m']) ++ (dsc ++ ['s']) := by simp
    rw [hshape]
    exact pyEndsWith_ms_false_of_digits _ dsc h3 g3
  have hsplit : pySplitHMS (dm ++ 'm' :: (dsc ++ ['s'])) =
      [dm, dsc, []] := by
    unfold pySplitHMS
    rw [pySplitOn_append _ dm _ 'm' (digits_no_hms dm g2) (by decide)]
    have : dsc ++ ['s'] = dsc ++ 's' :: ([] : List Char) := by simp
    rw [this,
      pySplitOn_append _ dsc _ 's' (digits_no_hms dsc g3) (by decide)]
    rfl
  simp [hms, hdash, hends, hsplit, List.mapM.loop,
    pyFloatParse_digits dm h2 g2, pyFloatParse_digits dsc h3 g3]

/-- hms on a single seconds field. -/
theorem hms_sfield_case (dsc : List Char) (h3 : dsc ≠ [])
    (g3 : allDigits dsc = true) :
    hms (dsc ++ ['s']) = .ok ((digitsVal dsc : ℚ)) := by
  have hdash : dsc ++ ['s'] ≠ ['-'] := append_single_ne_dash dsc 's' h3
  have hends : pyEndsWith (dsc ++ ['s']) ['m', 's'] = false := by
    have hshape : dsc ++ ['s'] = ([] : List Char) ++ (dsc ++ ['s']) := by simp
    rw [hshape]
    exact pyEndsWith_ms_false_of_digits [] dsc h3 g3
  have hsplit : pySplitHMS (dsc ++ ['s']) = [dsc, []] := by
    unfold pySplitHMS
    have : dsc ++ ['s'] = dsc ++ 's' :: ([] : List Char) := by simp
    rw [this,
      pySplitOn_append _ dsc _ 's' (digits_no_hms dsc g3) (by decide)]
    rfl
  simp [hms, hdash, hends, hsplit, List.mapM.loop,
    pyFloatParse_digits dsc h3 g3]

/-- A pair-suffix test is false when the final two characters differ from
the tested pair. -/
theorem pyEndsWith_pair_false (ys : List Char) (a b c d : Char)
    (h : ¬(a = c ∧ b = d)) : pyEndsWith (ys ++ [c, d]) [a, b] = false := by
  simp only [pyEndsWith, decide_eq_false_iff_not]
  intro hs
  exact h (suffix_pair_iff ys a b c d hs)

/-- C8: NextflowInspector.hms converts every duration string to seconds:
hms("-") is 0; a digit string followed by "ms" gives its value divided by
1000; digit fields in "<h>h<m>m<s>s" combine as 3600*h + 60*m + s; in
"<m>m<s>s" as 60*m + s; and a single "<s>s" field gives s. -/
theorem hms_duration_conversion :
    hms ['-'] = .ok 0 ∧
    (∀ ds : List Char, ds ≠ [] → allDigits ds = true →
      hms (ds ++ ['m', 's']) = .ok ((digitsVal ds : ℚ) / 1000)) ∧
    (∀ dh dm dsc : List Char, dh ≠ [] → dm ≠ [] → dsc ≠ [] →
      allDigits dh = true → allDigits dm = true → allDigits dsc = true →
      hms (dh ++ 'h' :: (dm ++ 'm' :: (dsc ++ ['s']))) =
        .ok ((digitsVal dh : ℚ) * 3600 + (digitsVal dm : ℚ) * 60 +
          (digitsVal dsc : ℚ))) ∧
    (∀ dm dsc : List Char, dm ≠ [] → dsc ≠ [] →
      allDigits dm = true → allDigits dsc = true →
      hms (dm ++ 'm' :: (dsc ++ ['s'])) =
        .ok ((digitsVal dm : ℚ) * 60 + (digitsVal dsc : ℚ))) ∧
    (∀ dsc : List Char, dsc ≠ [] → allDigits dsc = true →
      hms (dsc ++ ['s']) = .ok ((digitsVal dsc : ℚ))) := by
  refine ⟨rfl, hms_ms_case, hms_hms_case, hms_msfields_case, hms_sfield_case⟩

/-- Witness: the hms conversion theorem evaluated at "300ms" and
"1h2m3s". -/
theorem hms_duration_conversion_witness :
    hms (['3', '0', '0'] ++ ['m', 's']) =
      .ok ((digitsVal ['3', '0', '0'] : ℚ) / 1000) ∧
    hms (['1'] ++ 'h' :: (['2'] ++ 'm' :: (['3'] ++ ['s']))) =
      .ok ((digitsVal ['1'] : ℚ) * 3600 + (digitsVal ['2'] : ℚ) * 60 +
        (digitsVal ['3'] : ℚ)) :=
  ⟨hms_duration_conversion.2.1 ['3', '0', '0'] (by decide) (by decide),
   hms_duration_conversion.2.2.1 ['1'] ['2'] ['3'] (by decide) (by decide)
     (by decide) (by decide) (by decide) (by decide)⟩

/-- C9: NextflowInspector.size_coverter returns the numeric prefix
unchanged for strings ending in "MB", the numeric prefix times 1024 for
strings ending in "GB", and no value (Python's implicit None) for every
other input string, including "-" and KB or plain-byte suffixes. -/
theorem size_coverter_spec :
    (∀ ds : List Char, ds ≠ [] → allDigits ds = true →
      size_coverter (ds ++ ['M', 'B']) = .ok (some ((digitsVal ds : ℚ)))) ∧
    (∀ ds : List Char, ds ≠ [] → allDigits ds = true →
      size_coverter (ds ++ ['G', 'B']) =
        .ok (some ((digitsVal ds : ℚ) * 1024))) ∧
    (∀ s : List Char, pyEndsWith s ['M', 'B'] = false →
      pyEndsWith s ['G', 'B'] = false → size_coverter s = .ok none) := by
  have hndMB : ∀ x : Char, x.isDigit = true →
      (['M', 'B'].contains x) = false := by
    intro x hx
    have hm : x ≠ 'M' := by rintro rfl; exact absurd hx (by decide)
    have hb : x ≠ 'B' := by rintro rfl; exact absurd hx (by decide)
    simp [hm, hb]
  have hndGB : ∀ x : Char, x.isDigit = true →
      (['G', 'B'].contains x) = false := by
    intro x hx
    have hg : x ≠ 'G' := by rintro rfl; exact absurd hx (by decide)
    have hb : x ≠ 'B' := by rintro rfl; exact absurd hx (by decide)
    simp [hg, hb]
  refine ⟨?_, ?_, ?_⟩
  · intro ds hne hd
    have hends := pyEndsWith_append_pair ds 'M' 'B'
    have hstrip := pyRstripSet_digits ds 'M' 'B' ['M', 'B'] hne hd
      (by decide) (by decide) hndMB
    simp [size_coverter, hends, hstrip, pyFloatParse_digits ds hne hd]
  · intro ds hne hd
    have hendsMB : pyEndsWith (ds ++ ['G', 'B']) ['M', 'B'] = false :=
      pyEndsWith_pair_false ds 'M' 'B' 'G' 'B' (by simp)
    have hends := pyEndsWith_append_pair ds 'G' 'B'
    have hstrip := pyRstripSet_digits ds 'G' 'B' ['G', 'B'] hne hd
      (by decide) (by decide) hndGB
    simp [size_coverter, hendsMB, hends, hstrip,
      pyFloatParse_digits ds hne hd]
  · intro s h1 h2
    simp [size_coverter, h1, h2]

/-- Witness: size_coverter evaluated at "5MB", "5GB", "-" and "100KB". -/
theorem size_coverter_spec_witness :
    size_coverter (['5'] ++ ['M', 'B']) = .ok (some ((digitsVal ['5'] : ℚ))) ∧
    size_coverter (['5'] ++ ['G', 'B']) =
      .ok (some ((digitsVal ['5'] : ℚ) * 1024)) ∧
    size_coverter ['-'] = .ok none ∧
    size_coverter ['1', '0', '0', 'K', 'B'] = .ok none :=
  ⟨size_coverter_spec.1 ['5'] (by decide) (by decide),
   size_coverter_spec.2.1 ['5'] (by decide) (by decide),
   size_coverter_spec.2.2 ['-'] (by decide) (by decide),
   size_coverter_spec.2.2 ['1', '0', '0', 'K', 'B'] (by decide) (by decide)⟩

/-- C10: when the trace file's modification timestamp is non-zero and
equals the stored trace_stamp, the static parsing method returns without
reading the file's contents, leaving process_info, process_stats,
samples, stored_ids and trace_stamp all unchanged (the state returned is
the input state, whatever the file's lines hold). -/
theorem staticParser_unchanged_stamp :
    ∀ (fs : TraceFS) (st : InspectorState), fs.mtime ≠ 0 →
      st.trace_stamp = some fs.mtime → staticParser fs st = .ok st := by
  intro fs st h1 h2
  simp [staticParser, h1, h2]

/-- Witness: the frame theorem at a concrete timestamp-matching state and
a non-empty trace file. -/
theorem staticParser_unchanged_stamp_witness :
    staticParser ⟨5, [['a', '\t', 'b']], fun _ => []⟩
        ⟨some 5, [], [], [], []⟩ =
      .ok ⟨some 5, [], [], [], []⟩ :=
  staticParser_unchanged_stamp ⟨5, [['a', '\t', 'b']], fun _ => []⟩
    ⟨some 5, [], [], [], []⟩ (by decide) rfl

/-! ### Claim theorems for the compiler model -/


/-- C2: compilation is deterministic.  The facade is a pure function of
the pipeline string, the registry and the options, so two runs on the
same input are byte-identical; and channel identifiers are a function of
the node id alone. -/
theorem compile_deterministic :
    (∀ (input : List Char) (reg : Registry) (auto : Bool) (nm : String)
      (o1 o2 : Except CompileError String), compile input reg auto nm = o1 →
      compile input reg auto nm = o2 → o1 = o2) ∧
    (∀ nid : ℕ, channelName nid = "ch_" ++ toString nid) :=
  ⟨fun _ _ _ _ _ _ h1 h2 => h1.symm.trans h2, fun _ => rfl⟩

/-- Witness: determinism at a concrete compile. -/
theorem compile_deterministic_witness :
    compile (String.toList "A B") exampleRegistry true "p" =
      compile (String.toList "A B") exampleRegistry true "p" :=
  compile_deterministic.1 (String.toList "A B") exampleRegistry true "p"
    _ _ rfl rfl

/-- A successful compile decomposes into the four successful phases. -/
theorem compile_ok_split :
    ∀ (input : List Char) (reg : Registry) (auto : Bool) (nm : String)
      (s : String), compile input reg auto nm = .ok s →
      ∃ ts ss g, tokenize input = .ok ts ∧ parsePipeline reg ts = .ok ss ∧
        build ss reg auto = .ok g ∧ generate g nm = some s := by
  intro input reg auto nm s hs
  unfold compile at hs
  cases htok : tokenize input with
  | error e => simp only [htok] at hs; cases hs
  | ok ts =>
    simp only [htok] at hs
    cases hp : parsePipeline reg ts with
    | error e => simp only [hp] at hs; cases hs
    | ok ss =>
      simp only [hp] at hs
      cases hb : build ss reg auto with
      | error e => simp only [hb] at hs; cases hs
      | ok g =>
        simp only [hb] at hs
        cases hg : generate g nm with
        | none => simp only [hg] at hs; cases hs
        | some txt =>
          simp only [hg, Except.ok.injEq] at hs
          exact ⟨ts, ss, g, rfl, hp, hb, by rw [hg, hs]⟩

/-- C3: the facade runs lexer, parser, graph builder and code generator
in that order, stops at the first failing phase returning that phase's
typed error, and emits a script only when every phase succeeded (so no
partial output accompanies a failure). -/
theorem compile_first_failure :
    ∀ (input : List Char) (reg : Registry) (auto : Bool) (nm : String),
    (∀ e, tokenize input = .error e →
      compile input reg auto nm = .error e) ∧
    (∀ ts e, tokenize input = .ok ts → parsePipeline reg ts = .error e →
      compile input reg auto nm = .error e) ∧
    (∀ ts ss e, tokenize input = .ok ts → parsePipeline reg ts = .ok ss →
      build ss reg auto = .error e → compile input reg auto nm = .error e) ∧
    (∀ s, compile input reg auto nm = .ok s →
      ∃ ts ss g, tokenize input = .ok ts ∧ parsePipeline reg ts = .ok ss ∧
        build ss reg auto = .ok g ∧ generate g nm = some s) := by
  intro input reg auto nm
  refine ⟨?_, ?_, ?_, ?_⟩
  · intro e he
    unfold compile
    rw [he]
  · intro ts e h1 h2
    unfold compile
    simp only [h1, h2]
  · intro ts ss e h1 h2 h3
    unfold compile
    simp only [h1, h2, h3]
  · exact compile_ok_split input reg auto nm

/-- Witness: a lexing failure propagates through the facade unchanged. -/
theorem compile_first_failure_witness :
    tokenize (String.toList "A !") = .error (CompileError.syntaxError 2 '!') ∧
    compile (String.toList "A !") exampleRegistry true "p" =
      .error (CompileError.syntaxError 2 '!') :=
  ⟨rfl, (compile_first_failure (String.toList "A !") exampleRegistry true
    "p").1 (CompileError.syntaxError 2 '!') rfl⟩

/-- C4: when process X requires capability "trimmed", nothing upstream
supplies it and the registry's declared default provider for "trimmed" is
T, compiling "X" with auto-dependency on yields exactly the two-node
graph [T, X] with the single spliced edge T into X; with auto-dependency
off the same input fails with MissingDependencyError for capability
"trimmed" at process X. -/
theorem auto_dependency_insertion :
    ∀ (reg : Registry) (xspec tspec : ProcessSpec),
    reg.lookup "X" = some xspec → xspec.requires = ["trimmed"] →
    reg.defaultProviderFor "trimmed" = some tspec → tspec.name = "T" →
    tokenize (String.toList "X") = .ok [⟨TokKind.ident "X", 0⟩] ∧
    parsePipeline reg [⟨TokKind.ident "X", 0⟩] = .ok [Step.proc "X"] ∧
    build [Step.proc "X"] reg true =
      .ok ⟨[⟨0, "T"⟩, ⟨1, "X"⟩], [⟨0, 1, Cardinality.one⟩]⟩ ∧
    build [Step.proc "X"] reg false =
      .error (.missingDependency "trimmed" "X") := by
  intro reg xspec tspec hX hreq hT hTname
  refine ⟨rfl, ?_, ?_, ?_⟩
  · simp [parsePipeline, parseStepsF, hX]
  · simp [build, buildSteps, addProc, hX, hreq, capSatisfied, hT, hTname,
      pushNode, inCard, topoSort, topoAux, noIncoming]
  · simp [build, buildSteps, addProc, hX, hreq, capSatisfied]

/-- Witness: the auto-dependency theorem at the concrete example
registry. -/
theorem auto_dependency_insertion_witness :
    build [Step.proc "X"] exampleRegistry true =
      .ok ⟨[⟨0, "T"⟩, ⟨1, "X"⟩], [⟨0, 1, Cardinality.one⟩]⟩ ∧
    build [Step.proc "X"] exampleRegistry false =
      .error (.missingDependency "trimmed" "X") :=
  ⟨(auto_dependency_insertion exampleRegistry ⟨"X", ["trimmed"], []⟩
      ⟨"T", [], ["trimmed"]⟩ rfl rfl rfl rfl).2.2.1,
   (auto_dependency_insertion exampleRegistry ⟨"X", ["trimmed"], []⟩
      ⟨"T", [], ["trimmed"]⟩ rfl rfl rfl rfl).2.2.2⟩

/-- C5: "A (B | C) D" (no capability requirements) compiles to a fan-out
from A into lanes [B] and [C] and a merge at D with fan-in edges from
both B and C into D.  In general, a process consumed while two or more
lanes are open is the merge point: it receives one fan-in edge from every
open lane's frontier, in lane declaration order, and the lanes collapse
into the single frontier at that node. -/
theorem fork_merge_structure :
    ∀ (reg : Registry) (sa sb sc sd : ProcessSpec) (auto : Bool),
    reg.lookup "A" = some sa → sa.requires = [] →
    reg.lookup "B" = some sb → sb.requires = [] →
    reg.lookup "C" = some sc → sc.requires = [] →
    reg.lookup "D" = some sd → sd.requires = [] →
    tokenize (String.toList "A (B | C) D") = .ok
      [⟨TokKind.ident "A", 0⟩, ⟨TokKind.lparen, 2⟩, ⟨TokKind.ident "B", 3⟩,
       ⟨TokKind.pipe, 5⟩, ⟨TokKind.ident "C", 7⟩, ⟨TokKind.rparen, 8⟩,
       ⟨TokKind.ident "D", 10⟩] ∧
    parsePipeline reg
      [⟨TokKind.ident "A", 0⟩, ⟨TokKind.lparen, 2⟩, ⟨TokKind.ident "B", 3⟩,
       ⟨TokKind.pipe, 5⟩, ⟨TokKind.ident "C", 7⟩, ⟨TokKind.rparen, 8⟩,
       ⟨TokKind.ident "D", 10⟩] = .ok
      [Step.proc "A", Step.fork [[Step.proc "B"], [Step.proc "C"]],
       Step.proc "D"] ∧
    build [Step.proc "A", Step.fork [[Step.proc "B"], [Step.proc "C"]],
        Step.proc "D"] reg auto =
      .ok ⟨[⟨0, "A"⟩, ⟨1, "B"⟩, ⟨2, "C"⟩, ⟨3, "D"⟩],
           [⟨0, 1, Cardinality.fanOut⟩, ⟨0, 2, Cardinality.fanOut⟩,
            ⟨1, 3, Cardinality.fanIn⟩, ⟨2, 3, Cardinality.fanIn⟩]⟩ ∧
    (∀ (reg' : Registry) (auto' : Bool) (st : BState) (p : String)
      (spec : ProcessSpec), reg'.lookup p = some spec →
      (∀ cap ∈ spec.requires, capSatisfied reg' st cap = true) →
      2 ≤ st.frontiers.length →
      addProc reg' auto' st p Cardinality.one =
        .ok ⟨st.nodes ++ [⟨st.nodes.length, p⟩],
             st.edges ++ st.frontiers.map
               (fun f => ⟨f, st.nodes.length, Cardinality.fanIn⟩),
             [st.nodes.length]⟩) := by
  intro reg sa sb sc sd auto hA hra hB hrb hC hrc hD hrd
  refine ⟨rfl, ?_, ?_, ?_⟩
  · simp [parsePipeline, parseStepsF, parseBranchesF, hA, hB, hC, hD]
  · simp [build, buildSteps, buildBranches, addProc, hA, hra, hB, hrb,
      hC, hrc, hD, hrd, capSatisfied, pushNode, inCard, topoSort, topoAux,
      noIncoming]
  · intro reg' auto' st p spec hlook hsat hlen
    have hfind : spec.requires.find?
        (fun cap => !(capSatisfied reg' st cap)) = none := by
      apply List.find?_eq_none.mpr
      intro cap hcap
      simp [hsat cap hcap]
    have hcard : inCard st Cardinality.one = Cardinality.fanIn := by
      simp [inCard, hlen]
    simp [addProc, hlook, hfind, pushNode, hcard]

/-- Witness: the fork and merge theorem at the concrete example
registry. -/
theorem fork_merge_structure_witness :
    build [Step.proc "A", Step.fork [[Step.proc "B"], [Step.proc "C"]],
        Step.proc "D"] exampleRegistry true =
      .ok ⟨[⟨0, "A"⟩, ⟨1, "B"⟩, ⟨2, "C"⟩, ⟨3, "D"⟩],
           [⟨0, 1, Cardinality.fanOut⟩, ⟨0, 2, Cardinality.fanOut⟩,
            ⟨1, 3, Cardinality.fanIn⟩, ⟨2, 3, Cardinality.fanIn⟩]⟩ :=
  (fork_merge_structure exampleRegistry ⟨"A", [], ["rawA"]⟩
    ⟨"B", [], ["rawB"]⟩ ⟨"C", [], ["rawC"]⟩ ⟨"D", [], ["rawD"]⟩ true
    rfl rfl rfl rfl rfl rfl rfl rfl).2.2.1

/-- The lexer succeeds on every input drawn from the declared alphabet. -/
theorem tokenizeAux_ok_of_alphabet :
    ∀ (cs : List Char) (i : ℕ) (acc : Option (List Char × ℕ)),
    (∀ c ∈ cs, inAlphabet c = true) →
    ∃ ts, tokenizeAux cs i acc = .ok ts := by
  intro cs
  induction cs with
  | nil => exact fun i acc _ => ⟨flushIdent acc, rfl⟩
  | cons c cs ih =>
    intro i acc hall
    have hc : inAlphabet c = true := hall c (List.mem_cons_self c cs)
    have hrest : ∀ x ∈ cs, inAlphabet x = true :=
      fun x hx => hall x (List.mem_cons_of_mem c hx)
    by_cases h1 : isIdentChar c = true
    · obtain ⟨ts, hts⟩ := ih (i + 1)
        (match acc with
         | none => some ([c], i)
         | some (a, s) => some (a ++ [c], s)) hrest
      exact ⟨ts, by simp [tokenizeAux, h1, hts]⟩
    · by_cases h2 : isSpaceChar c = true
      · obtain ⟨ts, hts⟩ := ih (i + 1) none hrest
        refine ⟨flushIdent acc ++ ts, ?_⟩
        simp [tokenizeAux, h1, h2, hts]
      · by_cases h3 : (c == '(') = true
        · obtain ⟨ts, hts⟩ := ih (i + 1) none hrest
          refine ⟨flushIdent acc ++ ⟨TokKind.lparen, i⟩ :: ts, ?_⟩
          simp [tokenizeAux, h1, h2, h3, hts]
        · by_cases h4 : (c == ')') = true
          · obtain ⟨ts, hts⟩ := ih (i + 1) none hrest
            refine ⟨flushIdent acc ++ ⟨TokKind.rparen, i⟩ :: ts, ?_⟩
            simp [tokenizeAux, h1, h2, h3, h4, hts]
          · by_cases h5 : (c == '|') = true
            · obtain ⟨ts, hts⟩ := ih (i + 1) none hrest
              refine ⟨flushIdent acc ++ ⟨TokKind.pipe, i⟩ :: ts, ?_⟩
              simp [tokenizeAux, h1, h2, h3, h4, h5, hts]
            · simp [inAlphabet, h1, h2, h3, h4, h5] at hc

/-- The lexer fails with a SyntaxError at the exact offset of the first
character outside the declared alphabet. -/
theorem tokenizeAux_err_at_first_bad :
    ∀ (cs : List Char) (i : ℕ) (acc : Option (List Char × ℕ)) (k : ℕ)
      (c : Char), cs.get? k = some c → inAlphabet c = false →
    (∀ j, j < k → ∀ d, cs.get? j = some d → inAlphabet d = true) →
    tokenizeAux cs i acc = .error (.syntaxError (i + k) c) := by
  intro cs
  induction cs with
  | nil => intro i acc k c hk; simp at hk
  | cons x cs ih =>
    intro i acc k c hk hbad hgood
    cases k with
    | zero =>
      simp only [List.get?_cons_zero, Option.some.injEq] at hk
      subst hk
      have n1 : isIdentChar x = false := by
        cases h : isIdentChar x
        · rfl
        · rw [inAlphabet, h] at hbad; simp at hbad
      have n2 : isSpaceChar x = false := by
        cases h : isSpaceChar x
        · rfl
        · rw [inAlphabet, h] at hbad; simp at hbad
      have n3 : (x == '(') = false := by
        cases h : (x == '(')
        · rfl
        · rw [inAlphabet, h] at hbad; simp at hbad
      have n4 : (x == ')') = false := by
        cases h : (x == ')')
        · rfl
        · rw [inAlphabet, h] at hbad; simp at hbad
      have n5 : (x == '|') = false := by
        cases h : (x == '|')
        · rfl
        · rw [inAlphabet, h] at hbad; simp at hbad
      simp [tokenizeAux, n1, n2, n3, n4, n5]
    | succ j =>
      simp only [List.get?_cons_succ] at hk
      have hx : inAlphabet x = true :=
        hgood 0 (Nat.succ_pos j) x rfl
      have hgood' : ∀ m, m < j → ∀ d, cs.get? m = some d →
          inAlphabet d = true := by
        intro m hm d hd
        exact hgood (m + 1) (Nat.succ_lt_succ hm) d (by simpa using hd)
      have harith : i + (j + 1) = (i + 1) + j := by omega
      by_cases h1 : isIdentChar x = true
      · rw [harith]
        simpa [tokenizeAux, h1] using
          ih (i + 1) _ j c hk hbad hgood'
      · by_cases h2 : isSpaceChar x = true
        · rw [harith]
          simp [tokenizeAux, h1, h2, ih (i + 1) none j c hk hbad hgood']
        · by_cases h3 : (x == '(') = true
          · rw [harith]
            simp [tokenizeAux, h1, h2, h3,
              ih (i + 1) none j c hk hbad hgood']
          · by_cases h4 : (x == ')') = true
            · rw [harith]
              simp [tokenizeAux, h1, h2, h3, h4,
                ih (i + 1) none j c hk hbad hgood']
            · by_cases h5 : (x == '|') = true
              · rw [harith]
                simp [tokenizeAux, h1, h2, h3, h4, h5,
                  ih (i + 1) none j c hk hbad hgood']
              · simp [inAlphabet, h1, h2, h3, h4, h5] at hx

/-- C7: over the declared alphabet the lexer always succeeds (and the
parser, a total function into a typed result, can then only return an AST
or a typed error, never an unstructured fault); any input whose first
character outside the alphabet sits at offset k makes tokenize fail with
a SyntaxError carrying exactly offset k and that character. -/
theorem tokenize_totality :
    (∀ cs : List Char, cs ≠ [] → (∀ c ∈ cs, inAlphabet c = true) →
      ∃ ts, tokenize cs = .ok ts) ∧
    (∀ (cs : List Char) (k : ℕ) (c : Char), cs.get? k = some c →
      inAlphabet c = false →
      (∀ j, j < k → ∀ d, cs.get? j = some d → inAlphabet d = true) →
      tokenize cs = .error (.syntaxError k c)) := by
  constructor
  · intro cs _ hall
    exact tokenizeAux_ok_of_alphabet cs 0 none hall
  · intro cs k c hk hbad hgood
    have := tokenizeAux_err_at_first_bad cs 0 none k c hk hbad hgood
    simpa using this

/-- Witness: lexing succeeds on "A B" and fails at offset 2 on "A !". -/
theorem tokenize_totality_witness :
    (∃ ts, tokenize (String.toList "A B") = .ok ts) ∧
    tokenize (String.toList "A !") =
      .error (.syntaxError 2 '!') :=
  ⟨tokenize_totality.1 (String.toList "A B") (by decide) (by decide),
   tokenize_totality.2 (String.toList "A !") 2 '!' (by decide) (by decide)
     (by decide)⟩


/-- pushNode preserves the builder invariant and grows the arena by
one. -/
theorem pushNode_inv (st : BState) (p : String) (card : Cardinality)
    (h : BInv st) : BInv (pushNode st p card) ∧
      st.nodes.length + 1 = (pushNode st p card).nodes.length := by
  obtain ⟨h1, h2, h3⟩ := h
  refine ⟨⟨?_, ?_, ?_⟩, by simp [pushNode]⟩
  · simp [pushNode, List.range_succ, h1]
  · intro e he
    simp only [pushNode, List.mem_append, List.length_append,
      List.length_cons, List.length_nil] at he ⊢
    rcases he with he | he
    · have := h2 e he
      omega
    · simp only [List.mem_map] at he
      obtain ⟨f, hf, rfl⟩ := he
      have := h3 f hf
      simp
      omega
  · intro f hf
    simp only [pushNode, List.mem_singleton] at hf
    simp [pushNode, hf]

/-- addProc preserves the builder invariant and cannot shrink the
arena. -/
theorem addProc_inv (reg : Registry) (auto : Bool) (st : BState)
    (p : String) (card : Cardinality) (st' : BState) (h : BInv st)
    (hok : addProc reg auto st p card = .ok st') :
    BInv st' ∧ st.nodes.length ≤ st'.nodes.length := by
  unfold addProc at hok
  split at hok
  · cases hok
  · split at hok
    · cases hok
      have := pushNode_inv st p (inCard st card) h
      exact ⟨this.1, by omega⟩
    · split at hok
      · split at hok
        · cases hok
        · cases hok
          rename_i sp cap hauto tsp hprov
          have hT := pushNode_inv st tsp.name (inCard st card) h
          have hX := pushNode_inv (pushNode st tsp.name (inCard st card)) p
            Cardinality.one hT.1
          exact ⟨hX.1, by omega⟩
      · cases hok

/-- Setting the frontier to valid node ids preserves the invariant. -/
theorem BInv_withFrontiers (st : BState) (lanes : List ℕ) (h : BInv st)
    (hl : ∀ f ∈ lanes, f < st.nodes.length) :
    BInv { st with frontiers := lanes } :=
  ⟨h.1, h.2.1, hl⟩

/-- The graph walk preserves the builder invariant (joint induction over
the step walk and the branch walk via the functional induction
principle). -/
theorem buildSteps_inv (reg : Registry) (auto : Bool) :
    ∀ (ss : List Step) (card : Cardinality) (st : BState),
    ∀ st', buildSteps reg auto ss card st = .ok st' → BInv st →
      BInv st' ∧ st.nodes.length ≤ st'.nodes.length := by
  refine buildSteps.induct reg auto
    (fun ss card st => ∀ st',
      buildSteps reg auto ss card st = .ok st' → BInv st →
        BInv st' ∧ st.nodes.length ≤ st'.nodes.length)
    (fun bs ff st => ∀ st' lanes,
      buildBranches reg auto bs ff st = .ok (st', lanes) → BInv st →
        (∀ f ∈ ff, f < st.nodes.length) →
        BInv st' ∧ st.nodes.length ≤ st'.nodes.length ∧
          ∀ x ∈ lanes, x < st'.nodes.length)
    ?_ ?_ ?_ ?_ ?_ ?_ ?_ ?_ ?_
  · intro card st st' hok hinv
    simp [buildSteps] at hok
    exact hok ▸ ⟨hinv, le_refl _⟩
  · intro p rest card st e herr st' hok hinv
    simp [buildSteps, herr] at hok
  · intro p rest card st st1 hadd ih st' hok hinv
    simp only [buildSteps, hadd] at hok
    obtain ⟨hinv1, hlen1⟩ := addProc_inv reg auto st p card st1 hinv hadd
    obtain ⟨hinv2, hlen2⟩ := ih st' hok hinv1
    exact ⟨hinv2, le_trans hlen1 hlen2⟩
  · intro bs rest card st e herr ihb st' hok hinv
    simp [buildSteps, herr] at hok
  · intro bs rest card st st1 lanes hbr ihb ih st' hok hinv
    simp only [buildSteps, hbr] at hok
    obtain ⟨hinv1, hlen1, hlanes⟩ := ihb st1 lanes hbr hinv hinv.2.2
    obtain ⟨hinv2, hlen2⟩ :=
      ih st' hok (BInv_withFrontiers st1 lanes hinv1 hlanes)
    exact ⟨hinv2, le_trans hlen1 hlen2⟩
  · intro ff st st' lanes hok hinv hff
    simp only [buildBranches, Except.ok.injEq, Prod.mk.injEq] at hok
    obtain ⟨h1, h2⟩ := hok
    subst h1
    subst h2
    exact ⟨hinv, le_refl _, by simp⟩
  · intro b bs ff st e herr ih st' lanes hok hinv hff
    simp [buildBranches, herr] at hok
  · intro b bs ff st st1 hb e herr ih ihb st' lanes hok hinv hff
    simp [buildBranches, hb, herr] at hok
  · intro b bs ff st st1 hb st2 lanes2 hbr ih ihb st' lanes hok hinv hff
    simp only [buildBranches, hb, hbr, Except.ok.injEq, Prod.mk.injEq]
      at hok
    obtain ⟨h1, h2⟩ := hok
    subst h1
    obtain ⟨hinv1, hlen1⟩ := ih st1 hb (BInv_withFrontiers st ff hinv hff)
    simp only at hlen1
    have hff1 : ∀ f ∈ ff, f < st1.nodes.length := by
      intro f hf
      have := hff f hf
      omega
    obtain ⟨hinv2, hlen2, hlanes2⟩ := ihb st2 lanes2 hbr hinv1 hff1
    refine ⟨hinv2, by omega, ?_⟩
    intro x hx
    rw [← h2] at hx
    rcases List.mem_append.mp hx with hx | hx
    · have := hinv1.2.2 x hx
      omega
    · exact hlanes2 x hx

/-- Soundness of the topological ordering worker: a returned order is a
permutation of the remaining nodes and places every edge (between
remaining nodes) forward. -/
theorem topoAux_sound :
    ∀ (fuel : ℕ) (rem : List ℕ) (es : List Edge) (ord : List ℕ),
    topoAux fuel rem es = some ord →
    ord.Perm rem ∧
      ∀ e ∈ es, e.src ∈ rem → e.dst ∈ rem →
        ord.indexOf e.src < ord.indexOf e.dst := by
  intro fuel
  induction fuel with
  | zero =>
    intro rem es ord h
    cases rem with
    | nil =>
      simp only [topoAux, Option.some.injEq] at h
      subst h
      exact ⟨List.Perm.refl _, fun e _ hs => by simp at hs⟩
    | cons a rest => simp [topoAux] at h
  | succ f ih =>
    intro rem es ord h
    cases rem with
    | nil =>
      simp only [topoAux, Option.some.injEq] at h
      subst h
      exact ⟨List.Perm.refl _, fun e _ hs => by simp at hs⟩
    | cons a rest =>
      rw [topoAux] at h
      cases hf : (a :: rest).find? (noIncoming es (a :: rest)) with
      | none => simp only [hf] at h; cases h
      | some n =>
        simp only [hf] at h
        cases hrec : topoAux f ((a :: rest).erase n) es with
        | none => simp [hrec] at h
        | some ord' =>
          simp only [hrec, Option.map_some', Option.some.injEq] at h
          subst h
          have hmem : n ∈ a :: rest := List.mem_of_find?_eq_some hf
          have hpred : noIncoming es (a :: rest) n = true :=
            List.find?_some hf
          obtain ⟨hperm', hord'⟩ := ih ((a :: rest).erase n) es ord' hrec
          have hperm : (n :: ord').Perm (a :: rest) :=
            (hperm'.cons n).trans (List.perm_cons_erase hmem).symm
          refine ⟨hperm, ?_⟩
          intro e he hsrc hdst
          have hany : (es.any fun e' =>
              e'.dst == n && (a :: rest).contains e'.src) = false := by
            simpa [noIncoming] using hpred
          have hno : ¬(e.dst = n ∧ e.src ∈ a :: rest) := by
            intro ⟨hd, hs⟩
            have := List.any_eq_false.mp hany e he
            simp [hd, hs] at this
          by_cases hdn : e.dst = n
          · exact absurd ⟨hdn, hsrc⟩ hno
          · have hdst' : e.dst ∈ (a :: rest).erase n :=
              (List.mem_erase_of_ne hdn).mpr hdst
            have hdsto : e.dst ∈ ord' := hperm'.mem_iff.mpr hdst'
            by_cases hsn : e.src = n
            · rw [hsn, List.indexOf_cons_self,
                List.indexOf_cons_ne ord' (fun hh => hdn hh.symm)]
              omega
            · have hsrc' : e.src ∈ (a :: rest).erase n :=
                (List.mem_erase_of_ne hsn).mpr hsrc
              have := hord' e he hsrc' hdst'
              rw [List.indexOf_cons_ne ord' (fun hh => hsn hh.symm),
                List.indexOf_cons_ne ord' (fun hh => hdn hh.symm)]
              omega

/-- C1: every graph the Graph Builder returns admits a valid topological
order; the feasibility check (covering synthesized-dependency edges,
which live in the same edge list) runs inside build, and the facade only
reaches code generation with a graph that passed it. -/
theorem build_graph_acyclic :
    (∀ (ast : List Step) (reg : Registry) (auto : Bool) (g : Graph),
      build ast reg auto = .ok g → ∃ ord, isTopoOrder g ord) ∧
    (∀ (input : List Char) (reg : Registry) (auto : Bool) (nm s : String),
      compile input reg auto nm = .ok s →
      ∃ ts ss g ord, tokenize input = .ok ts ∧
        parsePipeline reg ts = .ok ss ∧ build ss reg auto = .ok g ∧
        generate g nm = some s ∧ isTopoOrder g ord) := by
  have hmain : ∀ (ast : List Step) (reg : Registry) (auto : Bool)
      (g : Graph), build ast reg auto = .ok g → ∃ ord, isTopoOrder g ord := by
    intro ast reg auto g hok
    unfold build at hok
    cases hb : buildSteps reg auto ast Cardinality.one ⟨[], [], []⟩ with
    | error e => rw [hb] at hok; cases hok
    | ok st =>
      rw [hb] at hok
      simp only at hok
      cases hts : topoSort ⟨st.nodes, st.edges⟩ with
      | none => rw [hts] at hok; cases hok
      | some ord =>
        rw [hts] at hok
        cases hok
        have hinv0 : BInv ⟨[], [], []⟩ := by
          refine ⟨by simp, ?_, ?_⟩ <;> intro x hx <;> simp at hx
        obtain ⟨hinv, _⟩ :=
          buildSteps_inv reg auto ast Cardinality.one ⟨[], [], []⟩ st hb hinv0
        obtain ⟨hids, hedges, _⟩ := hinv
        have hts' : topoAux st.nodes.length
            (st.nodes.map GraphNode.nid) st.edges = some ord := hts
        obtain ⟨hperm, hord⟩ :=
          topoAux_sound st.nodes.length (st.nodes.map GraphNode.nid)
            st.edges ord hts'
        refine ⟨ord, ?_, ?_, ?_⟩
        · refine (List.Perm.nodup_iff hperm).mpr ?_
          rw [hids]
          exact List.nodup_range _
        · intro nd hnd
          exact hperm.mem_iff.mpr (List.mem_map_of_mem GraphNode.nid hnd)
        · intro e he
          have hsrc : e.src ∈ st.nodes.map GraphNode.nid := by
            rw [hids]
            exact List.mem_range.mpr (hedges e he).1
          have hdst : e.dst ∈ st.nodes.map GraphNode.nid := by
            rw [hids]
            exact List.mem_range.mpr (hedges e he).2
          exact ⟨hperm.mem_iff.mpr hsrc, hperm.mem_iff.mpr hdst,
            hord e he hsrc hdst⟩
  refine ⟨hmain, ?_⟩
  intro input reg auto nm s hs
  obtain ⟨ts, ss, g, h1, h2, h3, h4⟩ :=
    compile_ok_split input reg auto nm s hs
  obtain ⟨ord, hord⟩ := hmain ss reg auto g h3
  exact ⟨ts, ss, g, ord, h1, h2, h3, h4, hord⟩

/-- Witness: the acyclicity theorem at a concrete successful build. -/
theorem build_graph_acyclic_witness :
    build [Step.proc "A", Step.proc "B"] exampleRegistry true =
      .ok ⟨[⟨0, "A"⟩, ⟨1, "B"⟩], [⟨0, 1, Cardinality.one⟩]⟩ ∧
    ∃ ord, isTopoOrder
      ⟨[⟨0, "A"⟩, ⟨1, "B"⟩], [⟨0, 1, Cardinality.one⟩]⟩ ord :=
  ⟨by simp [build, buildSteps, addProc, pushNode, inCard, capSatisfied,
      exampleRegistry, topoSort, topoAux, noIncoming],
   build_graph_acyclic.1 [Step.proc "A", Step.proc "B"] exampleRegistry
     true ⟨[⟨0, "A"⟩, ⟨1, "B"⟩], [⟨0, 1, Cardinality.one⟩]⟩
     (by simp [build, buildSteps, addProc, pushNode, inCard, capSatisfied,
       exampleRegistry, topoSort, topoAux, noIncoming])⟩


mutual

/-- A well-formed derivation step denotes a non-empty AST fragment. -/
theorem ast1_ne_nil (reg : Registry) :
    ∀ t : GTree, wf1 reg t = true → ast1 t ≠ []
  | .gproc nm, _ => by simp [ast1]
  | .ggroup [], hwf => by simp [wf1] at hwf
  | .ggroup [b], hwf => by
    simp only [ast1]
    have hb : b ≠ [] ∧ wfL reg b = true := by
      simp [wf1, wfB, List.isEmpty_eq_true] at hwf
      exact ⟨hwf.1, hwf.2⟩
    exact astL_ne_nil reg b hb.1 hb.2
  | .ggroup (b1 :: b2 :: bs), _ => by simp [ast1]

/-- A non-empty well-formed derivation sequence denotes a non-empty
AST. -/
theorem astL_ne_nil (reg : Registry) :
    ∀ gs : List GTree, gs ≠ [] → wfL reg gs = true → astL gs ≠ []
  | [], h, _ => absurd rfl h
  | t :: ts, _, hwf => by
    simp only [astL]
    have h1 : wf1 reg t = true := by
      simp [wfL] at hwf
      exact hwf.1
    have := ast1_ne_nil reg t h1
    intro hcon
    exact this (List.append_eq_nil.mp hcon).1

end

mutual

/-- Parser correctness for rendered derivation sequences: with enough
fuel, the step-list parser consumes exactly the rendering of a
well-formed sequence, produces its denoted AST (splicing single-branch
groups), and stops at the given stop token. -/
theorem parse_flattenL (reg : Registry) :
    ∀ (gs : List GTree) (rest : List Token) (f : ℕ), wfL reg gs = true →
      stopTok rest → 2 * (flattenL gs ++ rest).length + 1 ≤ f →
      parseStepsF reg f (flattenL gs ++ rest) = .ok (astL gs, rest)
  | [], rest, f, _, hstop, hfuel => by
    simp only [flattenL, List.nil_append, astL]
    rcases hstop with rfl | ⟨t, ts, rfl, hkind⟩
    · cases f with
      | zero => simp at hfuel
      | succ f' => simp [parseStepsF]
    · cases f with
      | zero => simp at hfuel
      | succ f' =>
        rcases hkind with hk | hk <;> simp [parseStepsF, hk]
  | .gproc nm :: ts, rest, f, hwf, hstop, hfuel => by
    have hshape : flattenL (GTree.gproc nm :: ts) ++ rest =
        ⟨TokKind.ident nm, 0⟩ :: (flattenL ts ++ rest) := by
      simp [flattenL, flatten1]
    rw [wfL, wf1, Bool.and_eq_true] at hwf
    obtain ⟨hwf1, hwf2⟩ := hwf
    cases f with
    | zero =>
      rw [hshape] at hfuel
      simp at hfuel
    | succ f' =>
      have hfuel' : 2 * (flattenL ts ++ rest).length + 1 ≤ f' := by
        rw [hshape] at hfuel
        simp only [List.length_cons, List.length_append] at hfuel ⊢
        omega
      have ih := parse_flattenL reg ts rest f' hwf2 hstop hfuel'
      rw [hshape]
      simp [parseStepsF, hwf1, ih, astL, ast1]
  | .ggroup bs :: ts, rest, f, hwf, hstop, hfuel => by
    have hshape : flattenL (GTree.ggroup bs :: ts) ++ rest =
        ⟨TokKind.lparen, 0⟩ :: (flattenB bs ++ ⟨TokKind.rparen, 0⟩ ::
          (flattenL ts ++ rest)) := by
      simp [flattenL, flatten1]
    rw [wfL, wf1, Bool.and_eq_true, Bool.and_eq_true] at hwf
    obtain ⟨⟨hne0, hwfb⟩, hwf2⟩ := hwf
    have hbs_ne : bs ≠ [] := by
      intro hb
      rw [hb] at hne0
      simp at hne0
    cases f with
    | zero =>
      rw [hshape] at hfuel
      simp at hfuel
    | succ f' =>
      have hfuelb : 2 * (flattenB bs ++ ⟨TokKind.rparen, 0⟩ ::
          (flattenL ts ++ rest)).length + 2 ≤ f' := by
        rw [hshape] at hfuel
        simp only [List.length_cons, List.length_append] at hfuel ⊢
        omega
      have hfuelt : 2 * (flattenL ts ++ rest).length + 1 ≤ f' := by
        rw [hshape] at hfuel
        simp only [List.length_cons, List.length_append] at hfuel ⊢
        omega
      have hbr := parse_flattenB reg bs (flattenL ts ++ rest) f' hwfb
        hbs_ne hfuelb
      have ih := parse_flattenL reg ts rest f' hwf2 hstop hfuelt
      rw [hshape]
      rcases bs with _ | ⟨b, _ | ⟨b2, bs'⟩⟩
      · exact absurd rfl hbs_ne
      · simp [parseStepsF, hbr, ih, astL, ast1, astB]
      · simp [parseStepsF, hbr, ih, astL, ast1, astB]

/-- Parser correctness for rendered branch lists: with enough fuel, the
branch-list parser consumes the pipe-separated renderings and the closing
parenthesis and returns the denoted branch ASTs. -/
theorem parse_flattenB (reg : Registry) :
    ∀ (bs : List (List GTree)) (rest : List Token) (f : ℕ),
      wfB reg bs = true → bs ≠ [] →
      2 * (flattenB bs ++ ⟨TokKind.rparen, 0⟩ :: rest).length + 2 ≤ f →
      parseBranchesF reg f (flattenB bs ++ ⟨TokKind.rparen, 0⟩ :: rest) =
        .ok (astB bs, rest)
  | [], _, _, _, hne, _ => absurd rfl hne
  | [b], rest, f, hwf, _, hfuel => by
    rw [wfB, wfB, Bool.and_true, Bool.and_eq_true] at hwf
    obtain ⟨hne0, hwfl⟩ := hwf
    have hb_ne : b ≠ [] := by
      intro hb
      rw [hb] at hne0
      simp at hne0
    have hshape : flattenB [b] = flattenL b := by simp [flattenB]
    cases f with
    | zero => simp at hfuel
    | succ f' =>
      have hstop : stopTok (⟨TokKind.rparen, 0⟩ :: rest) :=
        Or.inr ⟨_, _, rfl, Or.inl rfl⟩
      have hfuel' : 2 * (flattenL b ++ ⟨TokKind.rparen, 0⟩ ::
          rest).length + 1 ≤ f' := by
        rw [hshape] at hfuel
        omega
      have hst := parse_flattenL reg b (⟨TokKind.rparen, 0⟩ :: rest) f'
        hwfl hstop hfuel'
      have hne' : (astL b).isEmpty = false := by
        have := astL_ne_nil reg b hb_ne hwfl
        cases hast : astL b with
        | nil => exact absurd hast this
        | cons x xs => rfl
      rw [hshape]
      simp [parseBranchesF, hst, hne', astB]
  | b :: b2 :: bs, rest, f, hwf, _, hfuel => by
    rw [wfB, Bool.and_eq_true, Bool.and_eq_true] at hwf
    obtain ⟨⟨hne0, hwfl⟩, hwfrest⟩ := hwf
    have hb_ne : b ≠ [] := by
      intro hb
      rw [hb] at hne0
      simp at hne0
    have hshape : flattenB (b :: b2 :: bs) ++ ⟨TokKind.rparen, 0⟩ :: rest =
        flattenL b ++ ⟨TokKind.pipe, 0⟩ ::
          (flattenB (b2 :: bs) ++ ⟨TokKind.rparen, 0⟩ :: rest) := by
      simp [flattenB]
    cases f with
    | zero => simp at hfuel
    | succ f' =>
      have hstop : stopTok (⟨TokKind.pipe, 0⟩ ::
          (flattenB (b2 :: bs) ++ ⟨TokKind.rparen, 0⟩ :: rest)) :=
        Or.inr ⟨_, _, rfl, Or.inr rfl⟩
      have hfuel1 : 2 * (flattenL b ++ ⟨TokKind.pipe, 0⟩ ::
          (flattenB (b2 :: bs) ++ ⟨TokKind.rparen, 0⟩ ::
            rest)).length + 1 ≤ f' := by
        rw [hshape] at hfuel
        simp only [List.length_cons, List.length_append] at hfuel ⊢
        omega
      have hfuel2 : 2 * (flattenB (b2 :: bs) ++ ⟨TokKind.rparen, 0⟩ ::
          rest).length + 2 ≤ f' := by
        rw [hshape] at hfuel
        simp only [List.length_cons, List.length_append] at hfuel ⊢
        omega
      have hst := parse_flattenL reg b (⟨TokKind.pipe, 0⟩ ::
        (flattenB (b2 :: bs) ++ ⟨TokKind.rparen, 0⟩ :: rest)) f'
        hwfl hstop hfuel1
      have hbr := parse_flattenB reg (b2 :: bs) rest f' hwfrest
        (by simp) hfuel2
      have hne' : (astL b).isEmpty = false := by
        have := astL_ne_nil reg b hb_ne hwfl
        cases hast : astL b with
        | nil => exact absurd hast this
        | cons x xs => rfl
      rw [hshape]
      simp [parseBranchesF, hst, hne', hbr, astB]

end

/-- astL distributes over append. -/
theorem astL_append : ∀ xs ys : List GTree,
    astL (xs ++ ys) = astL xs ++ astL ys := by
  intro xs ys
  induction xs with
  | nil => simp [astL]
  | cons t ts ih => simp [astL, ih]

/-- wfL distributes over append. -/
theorem wfL_append (reg : Registry) : ∀ xs ys : List GTree,
    wfL reg (xs ++ ys) = (wfL reg xs && wfL reg ys) := by
  intro xs ys
  induction xs with
  | nil => simp [wfL]
  | cons t ts ih => simp [wfL, ih, Bool.and_assoc]

/-- flattenL distributes over append. -/
theorem flattenL_append : ∀ xs ys : List GTree,
    flattenL (xs ++ ys) = flattenL xs ++ flattenL ys := by
  intro xs ys
  induction xs with
  | nil => simp [flattenL]
  | cons t ts ih => simp [flattenL, ih]

/-- Splicing inside a branch list preserves its length. -/
theorem spliceB_length : ∀ {bs bs' : List (List GTree)},
    SpliceB bs bs' → bs.length = bs'.length
  | _, _, .bhere _ _ _ _ => by simp
  | _, _, .bskip _ bs0 bs0' h => by simp [spliceB_length h]

mutual

/-- Splicing a single-branch group's parentheses away does not change the
denoted AST. -/
theorem spliceL_ast : ∀ {gs gs' : List GTree},
    SpliceL gs gs' → astL gs = astL gs'
  | _, _, .here b ts => by simp [astL, ast1, astL_append]
  | _, _, .skip t ts ts' h => by simp [astL, spliceL_ast h]
  | _, _, .inside bs bs' ts h => by
    cases h with
    | bhere b b' bs0 hL =>
      cases bs0 with
      | nil => simp [astL, ast1, spliceL_ast hL]
      | cons c cs => simp [astL, ast1, astB, spliceL_ast hL]
    | bskip b bs0 bs0' h' =>
      have hne : bs0 ≠ [] := by cases h' <;> simp
      have hne' : bs0' ≠ [] := by cases h' <;> simp
      cases bs0 with
      | nil => exact absurd rfl hne
      | cons c cs =>
        cases bs0' with
        | nil => exact absurd rfl hne'
        | cons c' cs' =>
          have hb := spliceB_ast h'
          simp [astL, ast1, astB] at hb ⊢
          exact ⟨hb.1, hb.2⟩

/-- Splicing inside a branch list preserves the branch ASTs. -/
theorem spliceB_ast : ∀ {bs bs' : List (List GTree)},
    SpliceB bs bs' → astB bs = astB bs'
  | _, _, .bhere b b' bs0 hL => by simp [astB, spliceL_ast hL]
  | _, _, .bskip b bs0 bs0' h => by simp [astB, spliceB_ast h]

end

/-- Splicing keeps a well-formed sequence non-empty. -/
theorem spliceL_ne (reg : Registry) : ∀ {gs gs' : List GTree},
    SpliceL gs gs' → wfL reg gs = true → gs' ≠ []
  | _, _, .here b ts, hwf => by
    have hb : b ≠ [] := by
      rw [wfL, wf1, wfB, wfB, Bool.and_true, Bool.and_eq_true,
        Bool.and_eq_true] at hwf
      intro hb0
      rw [hb0] at hwf
      simp at hwf
    cases b with
    | nil => exact absurd rfl hb
    | cons x xs => simp
  | _, _, .skip t ts ts' _, _ => by simp
  | _, _, .inside bs bs' ts _, _ => by simp

/-- Bool form of list non-emptiness. -/
theorem not_isEmpty_of_ne_nil {α : Type} (l : List α) (h : l ≠ []) :
    (!l.isEmpty) = true := by
  cases l with
  | nil => exact absurd rfl h
  | cons x xs => simp

mutual

/-- Splicing preserves well-formedness of a derivation sequence. -/
theorem spliceL_wf (reg : Registry) : ∀ {gs gs' : List GTree},
    SpliceL gs gs' → wfL reg gs = true → wfL reg gs' = true
  | _, _, .here b ts, hwf => by
    rw [wfL, wf1, wfB, wfB, Bool.and_true, Bool.and_eq_true,
      Bool.and_eq_true, Bool.and_eq_true] at hwf
    obtain ⟨⟨_, _, hwfb⟩, hts⟩ := hwf
    rw [wfL_append, Bool.and_eq_true]
    exact ⟨hwfb, hts⟩
  | _, _, .skip t ts ts' h, hwf => by
    rw [wfL, Bool.and_eq_true] at hwf
    rw [wfL, Bool.and_eq_true]
    exact ⟨hwf.1, spliceL_wf reg h hwf.2⟩
  | _, _, .inside bs bs' ts h, hwf => by
    rw [wfL, wf1, Bool.and_eq_true, Bool.and_eq_true] at hwf
    obtain ⟨⟨hne, hwfb⟩, hts⟩ := hwf
    have hne' : bs' ≠ [] := by
      have hlen := spliceB_length h
      intro h0
      rw [h0] at hlen
      simp at hlen
      rw [hlen] at hne
      simp at hne
    rw [wfL, wf1, Bool.and_eq_true, Bool.and_eq_true]
    exact ⟨⟨not_isEmpty_of_ne_nil bs' hne', spliceB_wf reg h hwfb⟩, hts⟩

/-- Splicing preserves well-formedness of a branch list. -/
theorem spliceB_wf (reg : Registry) : ∀ {bs bs' : List (List GTree)},
    SpliceB bs bs' → wfB reg bs = true → wfB reg bs' = true
  | _, _, .bhere b b' bs0 hL, hwf => by
    rw [wfB, Bool.and_eq_true, Bool.and_eq_true] at hwf
    obtain ⟨⟨hne, hwfl⟩, hrest⟩ := hwf
    have hwfl' := spliceL_wf reg hL hwfl
    have hne' : b' ≠ [] := spliceL_ne reg hL hwfl
    rw [wfB, Bool.and_eq_true, Bool.and_eq_true]
    exact ⟨⟨not_isEmpty_of_ne_nil b' hne', hwfl'⟩, hrest⟩
  | _, _, .bskip b bs0 bs0' h, hwf => by
    rw [wfB, Bool.and_eq_true, Bool.and_eq_true] at hwf
    obtain ⟨hb, hrest⟩ := hwf
    rw [wfB, Bool.and_eq_true, Bool.and_eq_true]
    exact ⟨hb, spliceB_wf reg h hrest⟩

end

mutual

/-- The rendering of a spliced sequence is the original rendering with
one left and one matching right parenthesis removed. -/
theorem spliceL_flat : ∀ {gs gs' : List GTree}, SpliceL gs gs' →
    ∃ pre mid post : List Token,
      flattenL gs = pre ++ ⟨TokKind.lparen, 0⟩ ::
        (mid ++ ⟨TokKind.rparen, 0⟩ :: post) ∧
      flattenL gs' = pre ++ (mid ++ post)
  | _, _, .here b ts =>
    ⟨[], flattenL b, flattenL ts,
     by simp [flattenL, flatten1, flattenB],
     by simp [flattenL_append]⟩
  | _, _, .skip t ts ts' h => by
    obtain ⟨pre, mid, post, h1, h2⟩ := spliceL_flat h
    exact ⟨flatten1 t ++ pre, mid, post,
      by simp [flattenL, h1], by simp [flattenL, h2]⟩
  | _, _, .inside bs bs' ts h => by
    obtain ⟨pre, mid, post, h1, h2⟩ := spliceB_flat h
    refine ⟨⟨TokKind.lparen, 0⟩ :: pre, mid,
      post ++ ⟨TokKind.rparen, 0⟩ :: flattenL ts, ?_, ?_⟩
    · simp [flattenL, flatten1, h1]
    · simp [flattenL, flatten1, h2]

/-- The rendering of a spliced branch list is the original rendering with
one matching parenthesis pair removed. -/
theorem spliceB_flat : ∀ {bs bs' : List (List GTree)}, SpliceB bs bs' →
    ∃ pre mid post : List Token,
      flattenB bs = pre ++ ⟨TokKind.lparen, 0⟩ ::
        (mid ++ ⟨TokKind.rparen, 0⟩ :: post) ∧
      flattenB bs' = pre ++ (mid ++ post)
  | _, _, .bhere b b' bs0 hL => by
    obtain ⟨pre, mid, post, h1, h2⟩ := spliceL_flat hL
    cases bs0 with
    | nil =>
      exact ⟨pre, mid, post, by simpa [flattenB] using h1,
        by simpa [flattenB] using h2⟩
    | cons c cs =>
      refine ⟨pre, mid, post ++ ⟨TokKind.pipe, 0⟩ :: flattenB (c :: cs),
        ?_, ?_⟩
      · simp [flattenB, h1]
      · simp [flattenB, h2]
  | _, _, .bskip b bs0 bs0' h => by
    have hne : bs0 ≠ [] := by cases h <;> simp
    have hne' : bs0' ≠ [] := by cases h <;> simp
    obtain ⟨pre, mid, post, h1, h2⟩ := spliceB_flat h
    cases bs0 with
    | nil => exact absurd rfl hne
    | cons c cs =>
      cases bs0' with
      | nil => exact absurd rfl hne'
      | cons c' cs' =>
        refine ⟨flattenL b ++ ⟨TokKind.pipe, 0⟩ :: pre, mid, post, ?_, ?_⟩
        · simp [flattenB, h1]
        · simp [flattenB, h2]

end

/-- forksOKL distributes over append. -/
theorem forksOKL_append : ∀ xs ys : List Step,
    forksOKL (xs ++ ys) = (forksOKL xs && forksOKL ys) := by
  intro xs ys
  induction xs with
  | nil => simp [forksOKL]
  | cons s ss ih => simp [forksOKL, ih, Bool.and_assoc]

/-- The parser never creates a fork with fewer than two branches: every
parsed step list satisfies forksOKL, and every parsed branch list is
non-empty and satisfies forksOKB. -/
theorem parser_forksOK : ∀ (f : ℕ) (reg : Registry),
    (∀ ts ss r, parseStepsF reg f ts = .ok (ss, r) →
      forksOKL ss = true) ∧
    (∀ ts bs r, parseBranchesF reg f ts = .ok (bs, r) →
      forksOKB bs = true ∧ bs ≠ []) := by
  intro f
  induction f with
  | zero =>
    intro reg
    constructor
    · intro ts ss r h
      simp [parseStepsF] at h
    · intro ts bs r h
      simp [parseBranchesF] at h
  | succ f ih =>
    intro reg
    obtain ⟨ihs, ihb⟩ := ih reg
    constructor
    · intro ts ss r h
      cases ts with
      | nil =>
        simp only [parseStepsF, Except.ok.injEq, Prod.mk.injEq] at h
        rw [← h.1]
        rfl
      | cons t ts' =>
        obtain ⟨k, off⟩ := t
        cases k with
        | rparen =>
          simp only [parseStepsF, Except.ok.injEq, Prod.mk.injEq] at h
          rw [← h.1]
          rfl
        | pipe =>
          simp only [parseStepsF, Except.ok.injEq, Prod.mk.injEq] at h
          rw [← h.1]
          rfl
        | ident nm =>
          simp only [parseStepsF] at h
          split at h
          · split at h
            · cases h
            · rename_i ss0 r0 heq
              simp only [Except.ok.injEq, Prod.mk.injEq] at h
              rw [← h.1, forksOKL]
              simp only [forksOK1, Bool.true_and]
              exact ihs ts' ss0 r0 heq
          · cases h
        | lparen =>
          simp only [parseStepsF] at h
          split at h
          · cases h
          · rename_i bs0 r1 heqB
            split at h
            · cases h
            · rename_i ss0 r0 heqS
              obtain ⟨hBok, hBne⟩ := ihb ts' bs0 r1 heqB
              split at h
              · rename_i b
                simp only [Except.ok.injEq, Prod.mk.injEq] at h
                rw [← h.1, forksOKL_append, Bool.and_eq_true]
                constructor
                · rw [forksOKB, Bool.and_eq_true] at hBok
                  exact hBok.1
                · exact ihs r1 ss0 r0 heqS
              · rename_i hnotone
                simp only [Except.ok.injEq, Prod.mk.injEq] at h
                rw [← h.1, forksOKL, Bool.and_eq_true]
                refine ⟨?_, ihs r1 ss0 r0 heqS⟩
                rw [forksOK1, Bool.and_eq_true]
                refine ⟨?_, hBok⟩
                cases bs0 with
                | nil => exact absurd rfl hBne
                | cons b1 bs1 =>
                  cases bs1 with
                  | nil => exact absurd rfl (hnotone b1)
                  | cons b2 bs2 => simp
    · intro ts bs r h
      simp only [parseBranchesF] at h
      split at h
      · cases h
      · rename_i ss r1 heqS
        split at h
        · cases h
        · rename_i hssne
          split at h
          · rename_i rest
            split at h
            · cases h
            · rename_i bs0 r0 heqB
              simp only [Except.ok.injEq, Prod.mk.injEq] at h
              obtain ⟨hBok, _⟩ := ihb rest bs0 r0 heqB
              rw [← h.1]
              refine ⟨?_, by simp⟩
              rw [forksOKB, Bool.and_eq_true]
              exact ⟨ihs ts ss _ heqS, hBok⟩
          · rename_i rest
            simp only [Except.ok.injEq, Prod.mk.injEq] at h
            rw [← h.1]
            refine ⟨?_, by simp⟩
            rw [forksOKB, forksOKB, Bool.and_true]
            exact ihs ts ss _ heqS
          · cases h

/-- C6: for every derivation containing a parenthesized group with
exactly one branch, the rendered token stream is the rendering with one
single-branch parenthesis pair removed, parsing both renderings gives
identical results (the group's contents splice into the surrounding
sequence), and, over all inputs, the parser never creates a fork node
with fewer than two branches. -/
theorem single_branch_group_splice :
    ∀ (reg : Registry) (gs gs' : List GTree), SpliceL gs gs' →
      wfL reg gs = true →
      ((∃ pre mid post : List Token,
          flattenL gs = pre ++ ⟨TokKind.lparen, 0⟩ ::
            (mid ++ ⟨TokKind.rparen, 0⟩ :: post) ∧
          flattenL gs' = pre ++ (mid ++ post)) ∧
        parsePipeline reg (flattenL gs) =
          parsePipeline reg (flattenL gs')) ∧
      (∀ (ts : List Token) (ast : List Step),
        parsePipeline reg ts = .ok ast → forksOKL ast = true) := by
  intro reg gs gs' hsp hwf
  refine ⟨⟨spliceL_flat hsp, ?_⟩, ?_⟩
  · have hwf' := spliceL_wf reg hsp hwf
    have h1 := parse_flattenL reg gs [] (2 * (flattenL gs ++ []).length + 1)
      hwf (Or.inl rfl) (le_refl _)
    have h2 := parse_flattenL reg gs' []
      (2 * (flattenL gs' ++ []).length + 1) hwf' (Or.inl rfl) (le_refl _)
    simp only [List.append_nil] at h1 h2
    unfold parsePipeline
    rw [h1, h2, spliceL_ast hsp]
  · intro ts ast hok
    unfold parsePipeline at hok
    cases hps : parseStepsF reg (2 * ts.length + 1) ts with
    | error e => rw [hps] at hok; cases hok
    | ok p =>
      obtain ⟨ss, r⟩ := p
      rw [hps] at hok
      simp only at hok
      split at hok
      · split at hok
        · cases hok
        · simp only [Except.ok.injEq] at hok
          rw [← hok]
          exact (parser_forksOK (2 * ts.length + 1) reg).1 ts ss r hps
      · cases hok

/-- Witness: splicing the single-branch group in "A (B) C" parses the
same as "A B C". -/
theorem single_branch_group_splice_witness :
    parsePipeline exampleRegistry
      (flattenL [GTree.gproc "A", GTree.ggroup [[GTree.gproc "B"]],
        GTree.gproc "C"]) =
    parsePipeline exampleRegistry
      (flattenL [GTree.gproc "A", GTree.gproc "B", GTree.gproc "C"]) :=
  (single_branch_group_splice exampleRegistry
    [GTree.gproc "A", GTree.ggroup [[GTree.gproc "B"]], GTree.gproc "C"]
    [GTree.gproc "A", GTree.gproc "B", GTree.gproc "C"]
    (SpliceL.skip (GTree.gproc "A") _ _
      (SpliceL.here [GTree.gproc "B"] [GTree.gproc "C"]))
    (by simp [wfL, wf1, wfB, exampleRegistry])).1.2
